import Mathlib

set_option maxHeartbeats 1000000

/-!
Verification development for the progress64 concurrency-primitive library:
a shallow embedding of `src/p64_rwlock.c` and `src/p64_ringbuf.c` in Lean 4,
with machine integers modelled as `Nat` together with explicit reduction
modulo `2^32` (resp. `2^64`) wherever the C code performs fixed-width
arithmetic.
-/

namespace Progress64

/-- Modulus of `uint32_t` arithmetic. -/
def U32 : Nat := 4294967296

/-- Modulus of `uint64_t` arithmetic. -/
def U64 : Nat := 18446744073709551616

/-- Truncation of a natural number to `uint32_t`. -/
def u32 (x : Nat) : Nat := x % U32

/-- Addition of `uint32_t` values (wrap-around). -/
def add32 (a b : Nat) : Nat := (a + b) % U32

/-- Subtraction of `uint32_t` values (unsigned wrap-around). -/
def sub32 (a b : Nat) : Nat := (a % U32 + (U32 - b % U32)) % U32

/-- Reinterpretation of a `uint32_t` value as a C `int`
(two's-complement cast, as in `(int)(capacity + head - tail)`). -/
def toInt32 (x : Nat) : Int :=
  if x % U32 < 2147483648 then ((x % U32 : Nat) : Int) else ((x % U32 : Nat) : Int) - (U32 : Int)

/-! ## Reader/writer lock (`p64_rwlock.c`)

The lock word is a `uint32_t`: bit 31 is the writer flag, bits 0..30 count
active readers. -/
/-- RWLOCK_WRITER from `p64_rwlock.c`: `1U << 31`. -/
def RWLOCK_WRITER : Nat := 2147483648

/-- RWLOCK_READERS from `p64_rwlock.c`: `~RWLOCK_WRITER` as `uint32_t`. -/
def RWLOCK_READERS : Nat := U32 - 1 - RWLOCK_WRITER

/-- One successful pass of the `p64_rwlock_acquire_rd` loop at word level:
`wait_for_no(lock, RWLOCK_WRITER)` means the CAS `l -> l + 1` can only
succeed when the current word has the writer bit clear, in which case the
word is incremented by one; the function never returns while the writer bit
is set (modelled as `none`).  The source performs no overflow check on the
31-bit reader field. -/
def p64_rwlock_acquire_rd_step (w : Nat) : Option Nat :=
  if w &&& RWLOCK_WRITER = 0 then some (add32 w 1) else none

/-- Thread-local status of one thread using the RW lock: outside any
critical section, inside a read critical section, inside
`p64_rwlock_acquire_wr` between the flag-setting CAS and the wait for the
readers to drain, or holding the write lock. -/
inductive TState where
  | idle : TState
  | reading : TState
  | wrWaiting : TState
  | wrHolding : TState
deriving DecidableEq, Repr

/-- A configuration of the RW lock shared by `T` threads: the 32-bit lock
word plus each thread's status. -/
structure RWCfg (T : Nat) where
  word : Nat
  ts : Fin T → TState

/-- Interleaving semantics of the four RW-lock operations of `p64_rwlock.c`,
one atomic step per transition.  `acquire_rd` is the successful CAS
`l -> l + 1` (possible only with the writer bit clear, per `wait_for_no`);
`release_rd` is the unconditional `fetch_sub(lock, 1)`; `acquire_wr_cas` is
the successful CAS `l -> l | RWLOCK_WRITER` (writer bit clear); the
subsequent `wait_for_no(lock, RWLOCK_READERS)` completes `acquire_wr` when
the reader field is zero (`acquire_wr_wait`); `release_wr` stores 0 (the
source aborts unless the word is exactly `RWLOCK_WRITER`, so the store only
happens in that case). -/
inductive RWStep {T : Nat} : RWCfg T → RWCfg T → Prop where
  | acquire_rd (c : RWCfg T) (i : Fin T) :
      c.ts i = TState.idle → c.word &&& RWLOCK_WRITER = 0 →
      RWStep c ⟨add32 c.word 1, Function.update c.ts i TState.reading⟩
  | release_rd (c : RWCfg T) (i : Fin T) :
      c.ts i = TState.reading →
      RWStep c ⟨sub32 c.word 1, Function.update c.ts i TState.idle⟩
  | acquire_wr_cas (c : RWCfg T) (i : Fin T) :
      c.ts i = TState.idle → c.word &&& RWLOCK_WRITER = 0 →
      RWStep c ⟨c.word ||| RWLOCK_WRITER, Function.update c.ts i TState.wrWaiting⟩
  | acquire_wr_wait (c : RWCfg T) (i : Fin T) :
      c.ts i = TState.wrWaiting → c.word &&& RWLOCK_READERS = 0 →
      RWStep c ⟨c.word, Function.update c.ts i TState.wrHolding⟩
  | release_wr (c : RWCfg T) (i : Fin T) :
      c.ts i = TState.wrHolding → c.word = RWLOCK_WRITER →
      RWStep c ⟨0, Function.update c.ts i TState.idle⟩

/-- The configuration produced by `p64_rwlock_init`: word 0, every thread
outside the lock. -/
def rwInit (T : Nat) : RWCfg T := ⟨0, fun _ => TState.idle⟩

/-- States reachable from the initialized lock by any interleaving of the
four RW-lock operations. -/
def RWReachable {T : Nat} (c : RWCfg T) : Prop :=
  Relation.ReflTransGen RWStep (rwInit T) c

/-- Number of threads currently in state `s`. -/
def countTS {T : Nat} (ts : Fin T → TState) (s : TState) : Nat :=
  ∑ i, if ts i = s then 1 else 0

/-- Inductive invariant of the RW-lock transition system: at most one
writer is present (waiting or holding), the lock word is exactly the writer
bit (if a writer is present) plus the number of threads inside read
critical sections, and a holding writer excludes all readers. -/
def RWInv {T : Nat} (c : RWCfg T) : Prop :=
  countTS c.ts TState.wrWaiting + countTS c.ts TState.wrHolding ≤ 1 ∧
  c.word = RWLOCK_WRITER * (countTS c.ts TState.wrWaiting + countTS c.ts TState.wrHolding)
      + countTS c.ts TState.reading ∧
  (countTS c.ts TState.wrHolding = 1 → countTS c.ts TState.reading = 0)

/-- Intermediate configuration of the violating interleaving: thread 0 has
completed `p64_rwlock_acquire_rd`, so the word is 1. -/
def rwCfgA : RWCfg 2 :=
  ⟨add32 (rwInit 2).word 1, Function.update (rwInit 2).ts 0 TState.reading⟩

/-- Configuration reached when thread 1 then executes the flag-setting CAS of
`p64_rwlock_acquire_wr` while thread 0 is still reading: the word is
`2^31 + 1` (writer bit set, reader count 1). -/
def rwCfgB : RWCfg 2 :=
  ⟨rwCfgA.word ||| RWLOCK_WRITER, Function.update rwCfgA.ts 1 TState.wrWaiting⟩

/-! ## Ring buffer (`p64_ringbuf.c`)

Elements are opaque machine pointers (`void *`); the embedding represents a
payload as a natural number and a ring as a total function from slot index
to payload. -/
/-- Opaque element payload (a `void *` in the source). -/
abbrev Elem := Nat

/-- Modelled from the spec: the public flag constants of the missing header
`p64_ringbuf.h`.  The spec's flag table (section 6) lists SPENQ, MPENQ,
NBENQ, SCDEQ, MCDEQ, NBDEQ and LFDEQ, with MPENQ (resp. MCDEQ) the default
when no other producer- (consumer-) side flag is given, hence their zero
encoding; the remaining flags are distinct single bits. -/
def P64_RINGBUF_F_MPENQ : Nat := 0x0000

/-- Modelled from the spec: single-producer enqueue flag. -/
def P64_RINGBUF_F_SPENQ : Nat := 0x0001

/-- Modelled from the spec: multi-consumer blocking dequeue (default). -/
def P64_RINGBUF_F_MCDEQ : Nat := 0x0000

/-- Modelled from the spec: single-consumer dequeue flag. -/
def P64_RINGBUF_F_SCDEQ : Nat := 0x0002

/-- Modelled from the spec: multi-producer non-blocking enqueue flag. -/
def P64_RINGBUF_F_NBENQ : Nat := 0x0004

/-- Modelled from the spec: multi-consumer non-blocking dequeue flag. -/
def P64_RINGBUF_F_NBDEQ : Nat := 0x0008

/-- Modelled from the spec: multi-consumer lock-free dequeue flag. -/
def P64_RINGBUF_F_LFDEQ : Nat := 0x0010

/-- SUPPORTED_FLAGS from `p64_ringbuf.c`. -/
def SUPPORTED_FLAGS : Nat :=
  P64_RINGBUF_F_SPENQ ||| P64_RINGBUF_F_MPENQ |||
  P64_RINGBUF_F_SCDEQ ||| P64_RINGBUF_F_MCDEQ |||
  P64_RINGBUF_F_NBENQ ||| P64_RINGBUF_F_NBDEQ |||
  P64_RINGBUF_F_LFDEQ

/-- Internal per-side mode bit FLAG_BLK from `p64_ringbuf.c`. -/
def FLAG_BLK : Nat := 0x0001

/-- Internal per-side mode bit FLAG_LOCKFREE from `p64_ringbuf.c`. -/
def FLAG_LOCKFREE : Nat := 0x0002

/-- Internal per-side mode bit FLAG_NONBLK from `p64_ringbuf.c`. -/
def FLAG_NONBLK : Nat := 0x0004

/-- MAXELEMS from `p64_ringbuf.c`: `0xFFFFFFFF`. -/
def MAXELEMS : Nat := 0xFFFFFFFF

/-- PENDMAX from `p64_ringbuf.c`: size of the pending window. -/
def PENDMAX : Nat := 32

/-- Bitwise complement of a `uint32_t` value, as in `~SUPPORTED_FLAGS`. -/
def not32 (x : Nat) : Nat := U32 - 1 - x

/-- `struct idxpair`: a 32-bit in-order index `cur` and a 32-bit pending
bitmap `pend`, adjacent so they can be CAS'd as one 64-bit value. -/
structure Idxpair where
  cur : Nat
  pend : Nat
deriving DecidableEq, Repr

/-- `struct endpoint`: `head` idxpair, `tail` index and `capacity`
(consumer metadata is stored with head and tail swapped). -/
structure Endpoint where
  head : Idxpair
  tail : Nat
  capacity : Nat
deriving DecidableEq, Repr

/-- `struct p64_ringbuf`: the two endpoints, their masks, and the ring of
element slots (modelled as a total function from slot index to payload). -/
structure Ringbuf where
  prod : Endpoint
  prodMask : Nat
  cons : Endpoint
  consMask : Nat
  ring : Nat → Elem

/-- `p64_ringbuf_result_t` (from the missing public header, as used by the
source): the acquired start index, the number of acquired slots, and the
ring mask. -/
structure RingbufResult where
  index : Nat
  actual : Nat
  mask : Nat
deriving DecidableEq, Repr

/-- Fuel-bounded ceiling base-2 logarithm, total on `n < 2^fuel`. -/
def clog2Aux : Nat → Nat → Nat
  | 0, _ => 0
  | fuel + 1, n => if n ≤ 1 then 0 else clog2Aux fuel ((n + 1) / 2) + 1

/-- Modelled from the spec: `ROUNDUP_POW2` from the missing header
`common.h`; the spec states the allocated ring size is the next power of
two ≥ `nelems` (64 bits of fuel cover every `uint32_t` argument). -/
def ROUNDUP_POW2 (n : Nat) : Nat := 2 ^ clog2Aux 64 n

/-- The allocation result: `err` models the NULL return after a call to the
error reporter; `ok` carries the producer/consumer mode bits encoded in the
returned handle together with the initialized ring-buffer state (allocation
itself is assumed to succeed). -/
inductive AllocResult where
  | err : AllocResult
  | ok (prodFlags consFlags : Nat) (st : Ringbuf) : AllocResult

/-- `p64_ringbuf_alloc` from `p64_ringbuf.c`: validates `nelems` and
`flags`, rounds the ring size up to a power of two, and initializes both
endpoints; the mode bits derived from the flags are encoded in the handle.
The `esize` argument only affects the byte count of the allocation.  Fresh
ring slots are uninitialized in C; the model fills them with 0. -/
def p64_ringbuf_alloc (nelems flags _esize : Nat) : AllocResult :=
  if nelems = 0 ∨ nelems > MAXELEMS then AllocResult.err
  else
    let invalid_combo0 := P64_RINGBUF_F_SPENQ ||| P64_RINGBUF_F_NBENQ
    let invalid_combo1 := P64_RINGBUF_F_SCDEQ ||| P64_RINGBUF_F_NBDEQ
    let invalid_combo2 := P64_RINGBUF_F_SCDEQ ||| P64_RINGBUF_F_LFDEQ
    let invalid_combo3 := P64_RINGBUF_F_NBDEQ ||| P64_RINGBUF_F_LFDEQ
    if flags &&& not32 SUPPORTED_FLAGS ≠ 0 ∨
        flags &&& invalid_combo0 = invalid_combo0 ∨
        flags &&& invalid_combo1 = invalid_combo1 ∨
        flags &&& invalid_combo2 = invalid_combo2 ∨
        flags &&& invalid_combo3 = invalid_combo3 then AllocResult.err
    else
      let ringsz := ROUNDUP_POW2 nelems
      let prod_flags := if flags &&& P64_RINGBUF_F_SPENQ ≠ 0 then 0
        else if flags &&& P64_RINGBUF_F_NBENQ ≠ 0 then FLAG_NONBLK
        else FLAG_BLK
      let cons_flags0 := if flags &&& P64_RINGBUF_F_SCDEQ ≠ 0 then 0
        else if flags &&& P64_RINGBUF_F_NBDEQ ≠ 0 then FLAG_NONBLK
        else FLAG_BLK
      let cons_flags := cons_flags0 |||
        (if flags &&& P64_RINGBUF_F_LFDEQ ≠ 0 then FLAG_LOCKFREE else 0)
      AllocResult.ok prod_flags cons_flags
        { prod := ⟨⟨0, 0⟩, 0, nelems⟩
          prodMask := ringsz - 1
          cons := ⟨⟨0, 0⟩, 0, 0⟩
          consMask := ringsz - 1
          ring := fun _ => 0 }

/-- Outcome of `p64_ringbuf_free`: a NULL handle is ignored, a non-empty
ring is reported and left allocated unchanged, an empty ring is freed. -/
inductive FreeOutcome where
  | noop : FreeOutcome
  | notEmpty (st : Ringbuf) : FreeOutcome
  | freed : FreeOutcome

/-- `p64_ringbuf_free` from `p64_ringbuf.c`: a NULL handle does nothing;
otherwise the buffer is freed only when `prod.head.cur == cons.head.cur`,
and a non-empty buffer is reported ("ring buffer not empty") and left
unchanged. -/
def p64_ringbuf_free : Option Ringbuf → FreeOutcome
  | none => FreeOutcome.noop
  | some st =>
    if st.prod.head.cur ≠ st.cons.head.cur then FreeOutcome.notEmpty st
    else FreeOutcome.freed

/-- The element-copy loop `copy_voidptr(dst + dstBase, src, num)` of
`p64_ringbuf.c`, acting on the array `dst`: positions
`dstBase .. dstBase + num - 1` receive `src 0 .. src (num-1)`; like the
source loop, later iterations overwrite earlier ones. -/
def copy_voidptr (dst : Nat → Elem) (dstBase : Nat) (src : Nat → Elem) : Nat → (Nat → Elem)
  | 0 => dst
  | num + 1 =>
    Function.update (copy_voidptr dst dstBase src num) (dstBase + num) (src num)

/-- `write_slots` from `p64_ringbuf.c`: a single element is stored directly;
otherwise the run either fits in one contiguous range up to the end of the
ring (`seg0 = mask + 1 - (index & mask)` slots) or wraps and is split into
the two segments `[0, seg0)` and `[seg0, actual)`. -/
def write_slots (rbring : Nat → Elem) (ev : Nat → Elem) (r : RingbufResult) : Nat → Elem :=
  if r.actual ≤ 1 then
    Function.update rbring (r.index &&& r.mask) (ev 0)
  else
    let seg0 := r.mask + 1 - (r.index &&& r.mask)
    if r.actual ≤ seg0 then
      copy_voidptr rbring (r.index &&& r.mask) ev r.actual
    else
      copy_voidptr (copy_voidptr rbring (r.index &&& r.mask) ev seg0) 0
        (fun i => ev (seg0 + i)) (r.actual - seg0)

/-- `read_slots` from `p64_ringbuf.c`: mirror image of `write_slots`,
copying from the ring into the caller's array `ev`. -/
def read_slots (rbring : Nat → Elem) (ev : Nat → Elem) (r : RingbufResult) : Nat → Elem :=
  if r.actual ≤ 1 then
    Function.update ev 0 (rbring (r.index &&& r.mask))
  else
    let seg0 := r.mask + 1 - (r.index &&& r.mask)
    if r.actual ≤ seg0 then
      copy_voidptr ev 0 (fun i => rbring ((r.index &&& r.mask) + i)) r.actual
    else
      copy_voidptr (copy_voidptr ev 0 (fun i => rbring ((r.index &&& r.mask) + i)) seg0)
        seg0 rbring (r.actual - seg0)

/-- The relaxed stores of the NBENQ write path of `p64_ringbuf_enqueue` for
elements `1 .. cnt` (`cnt = actual - 1`). -/
def nbenq_write_rest (rbring : Nat → Elem) (ev : Nat → Elem) (index mask : Nat) :
    Nat → (Nat → Elem)
  | 0 => rbring
  | c + 1 =>
    Function.update (nbenq_write_rest rbring ev index mask c)
      ((index + (c + 1)) &&& mask) (ev (c + 1))

/-- The NBENQ write path of `p64_ringbuf_enqueue`: elements `1 .. actual-1`
are stored with relaxed ordering, then element 0 with release ordering. -/
def nbenq_write (rbring : Nat → Elem) (ev : Nat → Elem) (r : RingbufResult) : Nat → Elem :=
  Function.update (nbenq_write_rest rbring ev r.index r.mask (r.actual - 1))
    ((r.index + 0) &&& r.mask) (ev 0)

/-- `acquire_slots` from `p64_ringbuf.c` (MT-unsafe single producer/consumer
path): reads its own tail and the peer-updated head and computes
`actual = MIN(n, (int)(capacity + head - tail))` in `int` arithmetic. -/
def acquire_slots (headv tailv mask : Nat) (n : Int) (capacity : Nat) : RingbufResult :=
  let actual := min n (toInt32 (sub32 (capacity + headv) tailv))
  if actual ≤ 0 then ⟨0, 0, 0⟩
  else ⟨tailv, actual.toNat, mask⟩

/-- `acquire_slots_mtsafe` from `p64_ringbuf.c` under sequential
(no-interference) semantics, portable path: relaxed load of `tail`, acquire
load of `head.cur`, computation of `actual`, then the weak CAS advancing
`tail` by `actual`, which succeeds at the first attempt when nothing else
updates the endpoint.  The mask is the word following the endpoint. -/
def acquire_slots_mtsafe (ep : Endpoint) (mask : Nat) (n : Int) : RingbufResult × Endpoint :=
  let actual := min n (toInt32 (sub32 (ep.capacity + ep.head.cur) ep.tail))
  if actual ≤ 0 then (⟨0, 0, 0⟩, ep)
  else (⟨ep.tail, actual.toNat, mask⟩, { ep with tail := add32 ep.tail actual.toNat })

/-- LOWER from `p64_ringbuf.c`: `(uint32_t)(x)`. -/
def LOWER (x : Nat) : Nat := x % U32

/-- TOLOWER from `p64_ringbuf.c`: `(uint32_t)(x)`. -/
def TOLOWER (x : Nat) : Nat := x % U32

/-- UPPER from `p64_ringbuf.c`: `(uint32_t)((x) >> 32)`. -/
def UPPER (x : Nat) : Nat := (x >>> 32) % U32

/-- TOUPPER from `p64_ringbuf.c`: `((uint64_t)(x) << 32)`. -/
def TOUPPER (x : Nat) : Nat := (x <<< 32) % U64

/-- The 64-bit value of a `struct idxpair` when read or CAS'd as one
`uint64_t`: `cur` is the low half, `pend` the high half. -/
def packPair (p : Idxpair) : Nat := TOLOWER p.cur ||| TOUPPER p.pend

/-- The `struct idxpair` denoted by a 64-bit value. -/
def unpackPair (w : Nat) : Idxpair := ⟨LOWER w, UPPER w⟩

/-- Fuel-bounded count of trailing zero bits; 64 bits of fuel model
`__builtin_ctzl` on a `uint64_t` (the source asserts the argument is
nonzero, so the all-zero case never matters). -/
def ctzAux : Nat → Nat → Nat
  | 0, _ => 0
  | fuel + 1, x => if x % 2 = 0 then ctzAux fuel (x / 2) + 1 else 0

/-- `__builtin_ctzl` on a `uint64_t`. -/
def ctz64 (x : Nat) : Nat := ctzAux 64 x

/-- Bitwise complement of a `uint64_t` value, as in `~newpend`. -/
def compl64 (x : Nat) : Nat := U64 - 1 - x

/-- Fuel-bounded count of trailing one bits (the spec's reading of
`__builtin_ctzl(~newpend)`). -/
def trailingOnesAux : Nat → Nat → Nat
  | 0, _ => 0
  | fuel + 1, x => if x % 2 = 1 then trailingOnesAux fuel (x / 2) + 1 else 0

/-- Number of trailing one bits of a 64-bit value. -/
def trailingOnes (x : Nat) : Nat := trailingOnesAux 64 x

/-- Outcome of one iteration of the FLAG_NONBLK loop of `release_slots`:
the in-order CAS succeeded (`done`), the pending window cannot accommodate
the release yet (`wait`, i.e. `doze()` and retry), or an out-of-order
publication was computed for the combined CAS (`publish`). -/
inductive NBStep where
  | done (w : Nat) : NBStep
  | wait : NBStep
  | publish (w : Nat) : NBStep
deriving DecidableEq, Repr

/-- One iteration of the FLAG_NONBLK branch of `release_slots` from
`p64_ringbuf.c`, operating on the current 64-bit value `w` of the idxpair
cell: first the in-order release CAS with expected value `TOLOWER(idx)`
(pending mask clear) and desired value `TOLOWER(idx + n)`; on failure,
`delta = (uint32)(idx + n) - (uint32)w` decides between waiting and the
out-of-order publication that sets the pending bits
`((1 << n) - 1) << offset`, counts the trailing ones of the new pending
mask (`inorder = ctzl(~newpend)`), and advances `cur` by `inorder` while
shifting `pend` right by `inorder`. -/
def release_nonblk_step (w idx n : Nat) : NBStep :=
  if w = TOLOWER idx then NBStep.done (TOLOWER (idx + n))
  else
    let delta := sub32 (TOLOWER (idx + n)) (LOWER w)
    if delta > PENDMAX then NBStep.wait
    else
      let offset := sub32 idx (LOWER w)
      let ourpend := TOLOWER (((1 <<< n) - 1) <<< offset)
      let newpend := UPPER w ||| ourpend
      let inorder := ctz64 (compl64 newpend)
      NBStep.publish (TOLOWER (w + inorder) ||| TOUPPER (newpend >>> inorder))

/-- The FLAG_NONBLK branch of `release_slots` under sequential
(no-interference) semantics: the first iteration decides the outcome — a
`wait` retries forever because nothing else updates the cell (modelled as
`none`), and a computed publication CAS succeeds on the unchanged cell. -/
def release_slots_nonblk (loc : Idxpair) (idx n : Nat) : Option Idxpair :=
  match release_nonblk_step (packPair loc) idx n with
  | NBStep.done w => some (unpackPair w)
  | NBStep.wait => none
  | NBStep.publish w => some (unpackPair w)

/-- `release_slots` from `p64_ringbuf.c` under sequential semantics:
FLAG_BLK first waits until `loc->cur == idx` (modelled as `none` when the
condition does not already hold, since no other thread will change it);
without FLAG_NONBLK the release is the plain store `loc->cur = idx + n`
(`loads_only` only selects the fence and has no state effect); with
FLAG_NONBLK the pending-window algorithm runs. -/
def release_slots (loc : Idxpair) (idx n : Nat) (_loads_only : Bool) (flags : Nat) :
    Option Idxpair :=
  if flags &&& FLAG_BLK ≠ 0 ∧ loc.cur ≠ u32 idx then none
  else if flags &&& FLAG_NONBLK = 0 then some ⟨add32 idx n, loc.pend⟩
  else release_slots_nonblk loc idx n

/-- `p64_ringbuf_enqueue` from `p64_ringbuf.c` under sequential semantics,
parameterized by the producer mode bits `pf` carried in the handle:
step 1 acquires slots (single-producer `acquire_slots` against
`cons.head.cur`, or `acquire_slots_mtsafe` on the producer endpoint),
step 2 writes the elements (`nbenq_write` for NBENQ, `write_slots`
otherwise), step 3 releases the slots to the consumer at `cons.head`.
Returns the number of enqueued elements and the new state, or `none` where
the C code would spin forever. -/
def p64_ringbuf_enqueue (pf : Nat) (st : Ringbuf) (ev : Nat → Elem) (num : Nat) :
    Option (Nat × Ringbuf) :=
  let ar : RingbufResult × Ringbuf :=
    if pf &&& (FLAG_BLK ||| FLAG_NONBLK) = 0 then
      (acquire_slots st.prod.head.cur st.cons.head.cur st.prodMask
        (toInt32 num) st.prod.capacity, st)
    else
      let re := acquire_slots_mtsafe st.prod st.prodMask (toInt32 num)
      (re.1, { st with prod := re.2 })
  if ar.1.actual = 0 then some (0, ar.2)
  else
    let ring2 := if pf &&& FLAG_NONBLK ≠ 0 then nbenq_write ar.2.ring ev ar.1
      else write_slots ar.2.ring ev ar.1
    match release_slots ar.2.cons.head ar.1.index ar.1.actual false pf with
    | none => none
    | some h =>
      some (ar.1.actual, { ar.2 with ring := ring2, cons := { ar.2.cons with head := h } })

/-- `p64_ringbuf_dequeue` from `p64_ringbuf.c` under sequential semantics,
parameterized by the consumer mode bits `cf` of the handle.  The lock-free
path reads `prod.head.cur` and `cons.head.cur`, copies the slots in advance
and commits with a CAS on `prod.head.cur` (first try succeeds without
interference).  Otherwise step 1 acquires (single-consumer `acquire_slots`
with capacity 0, or `acquire_slots_mtsafe` on the consumer endpoint),
step 2 reads the slots, step 3 releases them to the producer at
`prod.head`.  Returns the element count, the caller's element array, the
dequeued start index (`*index`), and the new state. -/
def p64_ringbuf_dequeue (cf : Nat) (st : Ringbuf) (ev0 : Nat → Elem) (num : Nat) :
    Option (Nat × (Nat → Elem) × Nat × Ringbuf) :=
  if cf &&& FLAG_LOCKFREE ≠ 0 then
    let head := st.prod.head.cur
    let tail := st.cons.head.cur
    let actual := min (toInt32 num) (toInt32 (sub32 tail head))
    if actual ≤ 0 then some (0, ev0, 0, st)
    else
      let r : RingbufResult := ⟨head, actual.toNat, st.consMask⟩
      let ev1 := read_slots st.ring ev0 r
      some (actual.toNat, ev1, head,
        { st with prod := { st.prod with
            head := { st.prod.head with cur := add32 head actual.toNat } } })
  else
    let ar : RingbufResult × Ringbuf :=
      if cf &&& (FLAG_BLK ||| FLAG_NONBLK) = 0 then
        (acquire_slots st.cons.head.cur st.prod.head.cur st.consMask (toInt32 num) 0, st)
      else
        let re := acquire_slots_mtsafe st.cons st.consMask (toInt32 num)
        (re.1, { st with cons := re.2 })
    if ar.1.actual = 0 then some (0, ev0, 0, ar.2)
    else
      let ev1 := read_slots ar.2.ring ev0 ar.1
      match release_slots ar.2.prod.head ar.1.index ar.1.actual true cf with
      | none => none
      | some h =>
        some (ar.1.actual, ev1, ar.1.index,
          { ar.2 with prod := { ar.2.prod with head := h } })

/-- `p64_ringbuf_release_` from `p64_ringbuf.c` under sequential semantics:
an enqueue release always runs `release_slots` on `cons.head` and returns
true; a lock-free dequeue release is the weak CAS advancing `prod.head.cur`
from `r.index` to `r.index + r.actual`, whose success it reports; any other
dequeue release runs `release_slots` on `prod.head` and returns true. -/
def p64_ringbuf_release_ (pf cf : Nat) (st : Ringbuf) (r : RingbufResult)
    (enqueue : Bool) : Option (Bool × Ringbuf) :=
  if enqueue then
    match release_slots st.cons.head r.index r.actual false pf with
    | none => none
    | some h => some (true, { st with cons := { st.cons with head := h } })
  else
    if cf &&& FLAG_LOCKFREE ≠ 0 then
      if st.prod.head.cur = u32 r.index then
        some (true, { st with prod := { st.prod with
          head := { st.prod.head with cur := add32 r.index r.actual } } })
      else some (false, st)
    else
      match release_slots st.prod.head r.index r.actual true cf with
      | none => none
      | some h => some (true, { st with prod := { st.prod with head := h } })

/-- Outcome of one non-blocking release step in the specification model. -/
inductive NBStepSpec where
  | done (p : Idxpair) : NBStepSpec
  | wait : NBStepSpec
  | publish (p : Idxpair) : NBStepSpec
deriving DecidableEq, Repr

/-- Specification model of one FLAG_NONBLK release step, written from the
spec's words: attempt an in-order release by 8-byte CAS of
`{cur: idx, pend: 0} -> {cur: idx + n, pend: 0}`; on failure compute
`delta = (idx + n) - cur` with unsigned 32-bit wrap and pause-and-retry
while it exceeds PENDMAX; otherwise set the pending bits
`[offset, offset + n)` where `offset = idx - cur`, count the trailing ones
of the new pending mask (`inorder`), advance `cur` by `inorder` and shift
the pending mask right by `inorder`. -/
def release_nonblk_spec (p : Idxpair) (idx n : Nat) : NBStepSpec :=
  if p.cur = idx ∧ p.pend = 0 then NBStepSpec.done ⟨(idx + n) % U32, 0⟩
  else
    let delta := sub32 (idx + n) p.cur
    if delta > PENDMAX then NBStepSpec.wait
    else
      let offset := sub32 idx p.cur
      let newpend := p.pend ||| ((2 ^ n - 1) * 2 ^ offset)
      let inorder := trailingOnes newpend
      NBStepSpec.publish ⟨(p.cur + inorder) % U32, newpend >>> inorder⟩

/-- Packing of a spec-model step outcome into the 64-bit representation
used by the code-level step. -/
def liftNB : NBStepSpec → NBStep
  | NBStepSpec.done p => NBStep.done (packPair p)
  | NBStepSpec.wait => NBStep.wait
  | NBStepSpec.publish p => NBStep.publish (packPair p)

/-- State initialized by `p64_ringbuf_alloc nelems flags 8` (the model has
no allocation failure); falls back to a zero state on validation failure. -/
def allocState (nelems flags : Nat) : Ringbuf :=
  match p64_ringbuf_alloc nelems flags 8 with
  | AllocResult.ok _ _ st => st
  | AllocResult.err => ⟨⟨⟨0, 0⟩, 0, 0⟩, 0, ⟨⟨0, 0⟩, 0, 0⟩, 0, fun _ => 0⟩

/-- Demonstration state for the lock-free release witness: a freshly
allocated NBENQ+LFDEQ ring of capacity 8. -/
def lfDemo : Ringbuf := allocState 8 (P64_RINGBUF_F_NBENQ ||| P64_RINGBUF_F_LFDEQ)

/-- A quiescent (otherwise-empty, no operation in flight) ring-buffer
state: all four position counters equal `t`, both pending bitmaps are
clear, both masks are `2^kk - 1`, the producer capacity is positive and
`int`-safe, the consumer capacity is 0 as initialized by `alloc`. -/
def Quiescent (st : Ringbuf) (t kk : Nat) : Prop :=
  st.prod.head = ⟨t, 0⟩ ∧ st.prod.tail = t ∧ st.cons.head = ⟨t, 0⟩ ∧
  st.cons.tail = t ∧ st.prodMask = 2 ^ kk - 1 ∧ st.consMask = 2 ^ kk - 1 ∧
  t < U32 ∧ 1 ≤ st.prod.capacity ∧ st.prod.capacity < 2147483648 ∧
  st.cons.capacity = 0

/-- The part of the state shape after one successful one-element enqueue on
a quiescent ring that the subsequent dequeue depends on. -/
def QuiescentPlus1 (st : Ringbuf) (t kk : Nat) (v : Elem) : Prop :=
  st.prod.head = ⟨t, 0⟩ ∧ st.cons.head = ⟨add32 t 1, 0⟩ ∧ st.cons.tail = t ∧
  st.consMask = 2 ^ kk - 1 ∧ t < U32 ∧ st.cons.capacity = 0 ∧
  st.ring (t &&& (2 ^ kk - 1)) = v

/-- Fresh SPENQ|SCDEQ ring of `nelems` elements (the mode bits of such a
handle are 0 on both sides). -/
def spscSt0 (nelems : Nat) : Ringbuf :=
  allocState nelems (P64_RINGBUF_F_SPENQ ||| P64_RINGBUF_F_SCDEQ)

/-- State after `b` one-element enqueues of `v 0 .. v (b-1)` on a fresh
SPSC ring. -/
def spscEnqRun (nelems : Nat) (v : Nat → Elem) : Nat → Option Ringbuf
  | 0 => some (spscSt0 nelems)
  | Nat.succ b => (spscEnqRun nelems v b).bind fun st =>
      (p64_ringbuf_enqueue 0 st (fun _ => v b) 1).map Prod.snd

/-- Return value of the `(b+1)`-st one-element enqueue on a fresh SPSC
ring. -/
def spscEnqCount (nelems : Nat) (v : Nat → Elem) (b : Nat) : Option Nat :=
  (spscEnqRun nelems v b).bind fun st =>
    (p64_ringbuf_enqueue 0 st (fun _ => v b) 1).map Prod.fst

/-- State after `j` one-element dequeues following `nelems` enqueues. -/
def spscDeqRun (nelems : Nat) (v : Nat → Elem) : Nat → Option Ringbuf
  | 0 => spscEnqRun nelems v nelems
  | Nat.succ b => (spscDeqRun nelems v b).bind fun st =>
      (p64_ringbuf_dequeue 0 st (fun _ => 0) 1).map (fun x => x.2.2.2)

/-- Count and element returned by the `(j+1)`-st one-element dequeue. -/
def spscDeqVal (nelems : Nat) (v : Nat → Elem) (j : Nat) : Option (Nat × Elem) :=
  (spscDeqRun nelems v j).bind fun st =>
    (p64_ringbuf_dequeue 0 st (fun _ => 0) 1).map (fun x => (x.1, x.2.1 0))

/-- Explicit SPSC state after `b` one-element enqueues, driving the
induction. -/
def spscStK (nelems : Nat) (v : Nat → Elem) (b : Nat) : Ringbuf :=
  { prod := ⟨⟨0, 0⟩, 0, nelems⟩
    prodMask := ROUNDUP_POW2 nelems - 1
    cons := ⟨⟨b, 0⟩, 0, 0⟩
    consMask := ROUNDUP_POW2 nelems - 1
    ring := fun i => if i < b then v i else 0 }

/-- Explicit SPSC state after `nelems` enqueues and `j` dequeues. -/
def spscDtK (nelems : Nat) (v : Nat → Elem) (j : Nat) : Ringbuf :=
  { prod := ⟨⟨j, 0⟩, 0, nelems⟩
    prodMask := ROUNDUP_POW2 nelems - 1
    cons := ⟨⟨nelems, 0⟩, 0, 0⟩
    consMask := ROUNDUP_POW2 nelems - 1
    ring := fun i => if i < nelems then v i else 0 }

theorem toInt32_of_lt {x : Nat} (h : x < 2147483648) : toInt32 x = (x : Int) := by
  have hx : x % U32 = x := Nat.mod_eq_of_lt (by unfold U32; omega)
  simp only [toInt32, hx, if_pos h]

theorem sub32_add_cancel {c t : Nat} (hc : c < U32) (_ht : t < U32) :
    sub32 (c + t) t = c := by
  unfold sub32 U32 at *
  omega

theorem sub32_succ_cancel {t : Nat} (_ht : t < U32) : sub32 (add32 t 1) t = 1 := by
  unfold sub32 add32 U32 at *;
  omega

theorem countTS_le {T : Nat} (ts : Fin T → TState) (s : TState) : countTS ts s ≤ T := by
  calc countTS ts s ≤ ∑ _i : Fin T, 1 :=
        Finset.sum_le_sum (fun i _ => by split <;> omega)
    _ = T := by simp

theorem countTS_update {T : Nat} (ts : Fin T → TState) (j : Fin T) (b : TState)
    (s : TState) :
    countTS (Function.update ts j b) s + (if ts j = s then 1 else 0)
      = countTS ts s + (if b = s then 1 else 0) := by
  unfold countTS
  have hfun : ∀ x, (if Function.update ts j b x = s then 1 else 0)
      = Function.update (fun i => if ts i = s then 1 else 0) j (if b = s then 1 else 0) x :=
    fun x => Function.apply_update (fun _ t => if t = s then 1 else 0) ts j b x
  rw [Finset.sum_congr rfl (fun x _ => hfun x)]
  rw [Finset.sum_update_of_mem (Finset.mem_univ j)]
  rw [Finset.sdiff_singleton_eq_erase j Finset.univ]
  rw [← Finset.add_sum_erase Finset.univ _ (Finset.mem_univ j)]
  omega

theorem and_writer_eq_zero_iff {w : Nat} (hw : w < U32) :
    w &&& RWLOCK_WRITER = 0 ↔ w < RWLOCK_WRITER := by
  have h31 : RWLOCK_WRITER = 2 ^ 31 := by unfold RWLOCK_WRITER; norm_num
  rw [h31, Nat.and_two_pow, Nat.testBit_to_div_mod]
  unfold U32 at hw
  have h2p : (2:Nat) ^ 31 = 2147483648 := by norm_num
  rcases Nat.lt_or_ge w (2 ^ 31) with hlt | hge
  · have h0 : w / 2 ^ 31 = 0 := Nat.div_eq_of_lt hlt
    simp only [h0]
    norm_num
    omega
  · have h1 : w / 2 ^ 31 = 1 := by omega
    simp only [h1]
    norm_num
    omega

theorem and_readers_eq_mod {w : Nat} :
    w &&& RWLOCK_READERS = w % 2 ^ 31 := by
  have h : RWLOCK_READERS = 2 ^ 31 - 1 := by unfold RWLOCK_READERS RWLOCK_WRITER U32; norm_num
  rw [h, Nat.and_pow_two_sub_one_eq_mod]

theorem lor_writer_eq_add {w : Nat} (hw : w < RWLOCK_WRITER) :
    w ||| RWLOCK_WRITER = RWLOCK_WRITER + w := by
  have h31 : RWLOCK_WRITER = 2 ^ 31 := by unfold RWLOCK_WRITER; norm_num
  rw [h31] at hw ⊢
  have h := Nat.mul_add_lt_is_or hw 1
  simp only [Nat.mul_one] at h
  rw [Nat.lor_comm, ← h]

theorem rwInv_init (T : Nat) : RWInv (rwInit T) := by
  refine ⟨?_, ?_, ?_⟩ <;> simp [rwInit, countTS, RWInv]

theorem rwInv_step {T : Nat} (hT : T < 2147483648) {c c' : RWCfg T}
    (hstep : RWStep c c') (hinv : RWInv c) : RWInv c' := by
  obtain ⟨h1, h2, h3⟩ := hinv
  have hrd := countTS_le c.ts TState.reading
  cases hstep with
  | acquire_rd i hi hw =>
    have hcw : countTS c.ts TState.wrWaiting + countTS c.ts TState.wrHolding = 0 := by
      by_contra hne
      have hone : countTS c.ts TState.wrWaiting + countTS c.ts TState.wrHolding = 1 := by omega
      rw [hone] at h2
      have hlt : c.word < U32 := by
        unfold RWLOCK_WRITER U32 at *; omega
      rw [and_writer_eq_zero_iff hlt] at hw
      unfold RWLOCK_WRITER at *
      omega
    have hW := countTS_update c.ts i TState.reading TState.wrWaiting
    have hH := countTS_update c.ts i TState.reading TState.wrHolding
    have hR := countTS_update c.ts i TState.reading TState.reading
    simp [hi] at hW hH hR
    unfold RWInv
    dsimp only
    refine ⟨by omega, ?_, by omega⟩
    rw [h2]
    unfold add32 U32 RWLOCK_WRITER at *
    omega
  | release_rd i hi =>
    have hW := countTS_update c.ts i TState.idle TState.wrWaiting
    have hH := countTS_update c.ts i TState.idle TState.wrHolding
    have hR := countTS_update c.ts i TState.idle TState.reading
    have hRpos : 1 ≤ countTS c.ts TState.reading := by
      rcases Nat.eq_zero_or_pos (countTS c.ts TState.reading) with h0 | hpos
      · exfalso
        unfold countTS at h0
        rw [Finset.sum_eq_zero_iff] at h0
        have hzero := h0 i (Finset.mem_univ i)
        simp [hi] at hzero
      · exact hpos
    simp [hi] at hW hH hR
    have hHold : countTS c.ts TState.wrHolding = 0 := by
      by_contra hne
      have hh : countTS c.ts TState.wrHolding = 1 := by omega
      have := h3 hh
      omega
    unfold RWInv
    dsimp only
    refine ⟨by omega, ?_, by omega⟩
    rw [h2]
    unfold sub32 U32 RWLOCK_WRITER at *
    omega
  | acquire_wr_cas i hi hw =>
    have hcw : countTS c.ts TState.wrWaiting + countTS c.ts TState.wrHolding = 0 := by
      by_contra hne
      have hone : countTS c.ts TState.wrWaiting + countTS c.ts TState.wrHolding = 1 := by omega
      rw [hone] at h2
      have hlt : c.word < U32 := by
        unfold RWLOCK_WRITER U32 at *; omega
      rw [and_writer_eq_zero_iff hlt] at hw
      unfold RWLOCK_WRITER at *
      omega
    have hW := countTS_update c.ts i TState.wrWaiting TState.wrWaiting
    have hH := countTS_update c.ts i TState.wrWaiting TState.wrHolding
    have hR := countTS_update c.ts i TState.wrWaiting TState.reading
    simp [hi] at hW hH hR
    have hwlt : c.word < RWLOCK_WRITER := by
      unfold RWLOCK_WRITER at *
      omega
    unfold RWInv
    dsimp only
    refine ⟨by omega, ?_, by omega⟩
    rw [lor_writer_eq_add hwlt, h2]
    unfold RWLOCK_WRITER at *
    omega
  | acquire_wr_wait i hi hw =>
    have hW := countTS_update c.ts i TState.wrHolding TState.wrWaiting
    have hH := countTS_update c.ts i TState.wrHolding TState.wrHolding
    have hR := countTS_update c.ts i TState.wrHolding TState.reading
    have hWpos : 1 ≤ countTS c.ts TState.wrWaiting := by
      rcases Nat.eq_zero_or_pos (countTS c.ts TState.wrWaiting) with h0 | hpos
      · exfalso
        unfold countTS at h0
        rw [Finset.sum_eq_zero_iff] at h0
        have hzero := h0 i (Finset.mem_univ i)
        simp [hi] at hzero
      · exact hpos
    simp [hi] at hW hH hR
    have hR0 : countTS c.ts TState.reading = 0 := by
      rw [and_readers_eq_mod] at hw
      have hRlt : countTS c.ts TState.reading < 2 ^ 31 := by
        have hp : (2:Nat) ^ 31 = 2147483648 := by norm_num
        omega
      rw [h2] at hw
      have h31 : RWLOCK_WRITER = 2 ^ 31 := by unfold RWLOCK_WRITER; norm_num
      rw [h31] at hw
      have hone : countTS c.ts TState.wrWaiting + countTS c.ts TState.wrHolding = 1 := by omega
      rw [hone] at hw
      simp only [Nat.mul_one] at hw
      rwa [Nat.add_mod_left, Nat.mod_eq_of_lt hRlt] at hw
    unfold RWInv
    dsimp only
    refine ⟨by omega, ?_, by omega⟩
    rw [h2]
    unfold RWLOCK_WRITER at *
    omega
  | release_wr i hi hw =>
    have hW := countTS_update c.ts i TState.idle TState.wrWaiting
    have hH := countTS_update c.ts i TState.idle TState.wrHolding
    have hR := countTS_update c.ts i TState.idle TState.reading
    have hHpos : 1 ≤ countTS c.ts TState.wrHolding := by
      rcases Nat.eq_zero_or_pos (countTS c.ts TState.wrHolding) with h0 | hpos
      · exfalso
        unfold countTS at h0
        rw [Finset.sum_eq_zero_iff] at h0
        have hzero := h0 i (Finset.mem_univ i)
        simp [hi] at hzero
      · exact hpos
    simp [hi] at hW hH hR
    have hHone : countTS c.ts TState.wrHolding = 1 := by omega
    have hR0 := h3 hHone
    unfold RWInv
    dsimp only
    refine ⟨by omega, ?_, by omega⟩
    unfold RWLOCK_WRITER at *
    omega

theorem rwInv_reachable {T : Nat} (hT : T < 2147483648) {c : RWCfg T}
    (hc : RWReachable c) : RWInv c := by
  unfold RWReachable at hc
  induction hc with
  | refl => exact rwInv_init T
  | tail _hsteps hstep ih => exact rwInv_step hT hstep ih

theorem countTS_pos_exists {T : Nat} {ts : Fin T → TState} {s : TState}
    (h : 1 ≤ countTS ts s) : ∃ i, ts i = s := by
  by_contra hno
  push_neg at hno
  have hz : countTS ts s = 0 := by
    unfold countTS
    exact Finset.sum_eq_zero (fun i _ => by simp [hno i])
  omega

theorem rwCfgB_reachable : RWReachable rwCfgB := by
  have h1 : RWStep (rwInit 2) rwCfgA :=
    RWStep.acquire_rd (rwInit 2) 0 rfl (by decide)
  have h2 : RWStep rwCfgA rwCfgB :=
    RWStep.acquire_wr_cas rwCfgA 1 (by decide) (by decide)
  exact Relation.ReflTransGen.tail (Relation.ReflTransGen.single h1) h2

/-- C6 (counterexample): the claimed word invariant — writer bit set implies
reader count zero — fails on the code: after thread 0 completes
`p64_rwlock_acquire_rd` and thread 1 performs the flag-setting CAS inside
`p64_rwlock_acquire_wr`, the reachable word `2^31 + 1` has the writer bit
set and a nonzero reader field. -/
theorem rwlock_word_invariant_counterexample :
    RWReachable rwCfgB ∧ rwCfgB.word &&& RWLOCK_WRITER ≠ 0 ∧
      rwCfgB.word &&& RWLOCK_READERS ≠ 0 :=
  ⟨rwCfgB_reachable, by decide, by decide⟩

/-- C6 (amended): in every reachable state of the RW lock, if the writer bit
is set then either the reader count is zero or some thread is still inside
`p64_rwlock_acquire_wr`, between its flag-setting CAS and the wait for the
readers to drain.  In particular, once every `acquire_wr` call has returned
the word invariant of the claim holds. -/
theorem rwlock_word_invariant (T : Nat) (hT : T < 2147483648) (c : RWCfg T)
    (hc : RWReachable c) (hwr : c.word &&& RWLOCK_WRITER ≠ 0) :
    c.word &&& RWLOCK_READERS = 0 ∨ ∃ i, c.ts i = TState.wrWaiting := by
  obtain ⟨h1, h2, h3⟩ := rwInv_reachable hT hc
  have hrd := countTS_le c.ts TState.reading
  have h2p : (2:Nat) ^ 31 = 2147483648 := by norm_num
  have hWpresent : countTS c.ts TState.wrWaiting + countTS c.ts TState.wrHolding = 1 := by
    by_contra hne
    have hz : countTS c.ts TState.wrWaiting + countTS c.ts TState.wrHolding = 0 := by omega
    rw [hz, Nat.mul_zero, Nat.zero_add] at h2
    have hlt : c.word < U32 := by unfold U32 RWLOCK_WRITER at *; omega
    have hge : ¬ c.word < RWLOCK_WRITER :=
      fun hcl => hwr ((and_writer_eq_zero_iff hlt).mpr hcl)
    unfold RWLOCK_WRITER at hge
    omega
  rcases Nat.eq_zero_or_pos (countTS c.ts TState.wrWaiting) with hw0 | hwpos
  · left
    have hh1 : countTS c.ts TState.wrHolding = 1 := by omega
    have hr0 := h3 hh1
    rw [and_readers_eq_mod, h2, hWpresent, hr0]
    unfold RWLOCK_WRITER
    omega
  · right
    exact countTS_pos_exists hwpos

theorem rwlock_word_invariant_witness :
    (2:Nat) < 2147483648 ∧ rwCfgB.word &&& RWLOCK_WRITER ≠ 0 ∧
      (rwCfgB.word &&& RWLOCK_READERS = 0 ∨ ∃ i, rwCfgB.ts i = TState.wrWaiting) :=
  ⟨by decide, by decide,
    rwlock_word_invariant 2 (by decide) rwCfgB rwCfgB_reachable (by decide)⟩

/-- C7 (counterexample): with the 31-bit reader field exhausted
(`w = 2^31 - 1`, writer bit clear), `p64_rwlock_acquire_rd` does not fail:
its CAS succeeds and increments the word, overflowing the reader count into
the writer flag (the result is `2^31`, i.e. `RWLOCK_WRITER`). -/
theorem rwlock_acquire_rd_overflow_counterexample :
    p64_rwlock_acquire_rd_step 2147483647 = some 2147483648 ∧
      p64_rwlock_acquire_rd_step 2147483647 ≠ none := by
  exact ⟨by decide, by decide⟩

/-- C7 (amended): `p64_rwlock_acquire_rd` performs no overflow check.
Whenever the writer bit is clear it increments the word by one — also when
the reader field is exhausted, in which case the increment carries into the
writer flag; it fails (spins) exactly when the writer bit is set. -/
theorem rwlock_acquire_rd_step_spec (w : Nat) (hclear : w &&& RWLOCK_WRITER = 0) :
    p64_rwlock_acquire_rd_step w = some (add32 w 1) ∧
      (w = 2147483647 → p64_rwlock_acquire_rd_step w = some RWLOCK_WRITER) := by
  constructor
  · unfold p64_rwlock_acquire_rd_step
    rw [if_pos hclear]
  · intro hw
    subst hw
    decide

theorem rwlock_acquire_rd_step_spec_witness :
    ((5:Nat) &&& RWLOCK_WRITER = 0) ∧
      (p64_rwlock_acquire_rd_step 5 = some (add32 5 1) ∧
        ((5:Nat) = 2147483647 → p64_rwlock_acquire_rd_step 5 = some RWLOCK_WRITER)) :=
  ⟨by decide, rwlock_acquire_rd_step_spec 5 (by decide)⟩

theorem clog2Aux_le {fuel n : Nat} (hn : 1 ≤ n) (hf : n ≤ 2 ^ fuel) :
    n ≤ 2 ^ clog2Aux fuel n := by
  induction fuel generalizing n with
  | zero => simpa [clog2Aux] using hf
  | succ f ih =>
    unfold clog2Aux
    split
    next h1 => simpa using h1
    next h1 =>
      have hpow : (2:Nat) ^ (f + 1) = 2 * 2 ^ f := by ring
      have hhalf : 1 ≤ (n + 1) / 2 := by omega
      have hhf : (n + 1) / 2 ≤ 2 ^ f := by
        rw [hpow] at hf
        omega
      have hrec := ih hhalf hhf
      have h2 : (2:Nat) ^ (clog2Aux f ((n + 1) / 2) + 1) = 2 * 2 ^ clog2Aux f ((n + 1) / 2) := by
        ring
      omega

/-- C1: `p64_ringbuf_alloc(nelems, flags, esize)` fails — returns NULL after
invoking the error reporter — exactly when `nelems == 0`, `nelems` exceeds
`2^32 - 1`, `flags` has a bit outside the supported set, or `flags` contains
one of the four mutually exclusive combinations (SPENQ+NBENQ, SCDEQ+NBDEQ,
SCDEQ+LFDEQ, NBDEQ+LFDEQ); on every other input it returns a (non-null)
handle. -/
theorem ringbuf_alloc_err_iff (nelems flags esize : Nat)
    (_hn : nelems < U32) (_hf : flags < U32) :
    p64_ringbuf_alloc nelems flags esize = AllocResult.err ↔
      (nelems = 0 ∨ nelems > U32 - 1 ∨
        flags &&& not32 SUPPORTED_FLAGS ≠ 0 ∨
        flags &&& (P64_RINGBUF_F_SPENQ ||| P64_RINGBUF_F_NBENQ)
          = P64_RINGBUF_F_SPENQ ||| P64_RINGBUF_F_NBENQ ∨
        flags &&& (P64_RINGBUF_F_SCDEQ ||| P64_RINGBUF_F_NBDEQ)
          = P64_RINGBUF_F_SCDEQ ||| P64_RINGBUF_F_NBDEQ ∨
        flags &&& (P64_RINGBUF_F_SCDEQ ||| P64_RINGBUF_F_LFDEQ)
          = P64_RINGBUF_F_SCDEQ ||| P64_RINGBUF_F_LFDEQ ∨
        flags &&& (P64_RINGBUF_F_NBDEQ ||| P64_RINGBUF_F_LFDEQ)
          = P64_RINGBUF_F_NBDEQ ||| P64_RINGBUF_F_LFDEQ) := by
  have hmax : MAXELEMS = U32 - 1 := by unfold MAXELEMS U32; norm_num
  unfold p64_ringbuf_alloc
  rw [hmax]
  by_cases h0 : nelems = 0 ∨ nelems > U32 - 1
  · rw [if_pos h0]
    simp only [true_iff, eq_self_iff_true]
    tauto
  · rw [if_neg h0]
    by_cases h1 : flags &&& not32 SUPPORTED_FLAGS ≠ 0 ∨
        flags &&& (P64_RINGBUF_F_SPENQ ||| P64_RINGBUF_F_NBENQ)
          = P64_RINGBUF_F_SPENQ ||| P64_RINGBUF_F_NBENQ ∨
        flags &&& (P64_RINGBUF_F_SCDEQ ||| P64_RINGBUF_F_NBDEQ)
          = P64_RINGBUF_F_SCDEQ ||| P64_RINGBUF_F_NBDEQ ∨
        flags &&& (P64_RINGBUF_F_SCDEQ ||| P64_RINGBUF_F_LFDEQ)
          = P64_RINGBUF_F_SCDEQ ||| P64_RINGBUF_F_LFDEQ ∨
        flags &&& (P64_RINGBUF_F_NBDEQ ||| P64_RINGBUF_F_LFDEQ)
          = P64_RINGBUF_F_NBDEQ ||| P64_RINGBUF_F_LFDEQ
    · rw [if_pos h1]
      tauto
    · rw [if_neg h1]
      simp only [reduceCtorEq, false_iff]
      tauto

theorem ringbuf_alloc_err_iff_witness :
    (4:Nat) < U32 ∧ (3:Nat) < U32 ∧
      (p64_ringbuf_alloc 4 3 8 = AllocResult.err ↔
        ((4:Nat) = 0 ∨ (4:Nat) > U32 - 1 ∨
          (3:Nat) &&& not32 SUPPORTED_FLAGS ≠ 0 ∨
          (3:Nat) &&& (P64_RINGBUF_F_SPENQ ||| P64_RINGBUF_F_NBENQ)
            = P64_RINGBUF_F_SPENQ ||| P64_RINGBUF_F_NBENQ ∨
          (3:Nat) &&& (P64_RINGBUF_F_SCDEQ ||| P64_RINGBUF_F_NBDEQ)
            = P64_RINGBUF_F_SCDEQ ||| P64_RINGBUF_F_NBDEQ ∨
          (3:Nat) &&& (P64_RINGBUF_F_SCDEQ ||| P64_RINGBUF_F_LFDEQ)
            = P64_RINGBUF_F_SCDEQ ||| P64_RINGBUF_F_LFDEQ ∨
          (3:Nat) &&& (P64_RINGBUF_F_NBDEQ ||| P64_RINGBUF_F_LFDEQ)
            = P64_RINGBUF_F_NBDEQ ||| P64_RINGBUF_F_LFDEQ)) :=
  ⟨by decide, by decide, ringbuf_alloc_err_iff 4 3 8 (by decide) (by decide)⟩

/-- C9: for a non-null handle, `p64_ringbuf_free` reports "ring buffer not
empty" and leaves the buffer allocated and unchanged exactly when
`prod.head.cur` differs from `cons.head.cur`; when the two agree the memory
is freed. -/
theorem ringbuf_free_not_empty_iff (st : Ringbuf) :
    (p64_ringbuf_free (some st) = FreeOutcome.notEmpty st ↔
      st.prod.head.cur ≠ st.cons.head.cur) ∧
    (p64_ringbuf_free (some st) = FreeOutcome.freed ↔
      st.prod.head.cur = st.cons.head.cur) := by
  by_cases h : st.prod.head.cur = st.cons.head.cur <;>
    simp [p64_ringbuf_free, h]

/-- C10: `p64_ringbuf_free(NULL)` is a no-op: it reports no error,
dereferences nothing and frees nothing. -/
theorem ringbuf_free_null_noop : p64_ringbuf_free none = FreeOutcome.noop := rfl

theorem packPair_eq {p : Idxpair} (hc : p.cur < U32) (hp : p.pend < U32) :
    packPair p = p.cur + U32 * p.pend := by
  unfold packPair TOLOWER TOUPPER
  have h32 : (2:Nat) ^ 32 = 4294967296 := by norm_num
  have hcc : p.cur % U32 = p.cur := Nat.mod_eq_of_lt hc
  have hsh : p.pend <<< 32 = 2 ^ 32 * p.pend := by
    rw [Nat.shiftLeft_eq]
    ring
  have hmod : (p.pend <<< 32) % U64 = 2 ^ 32 * p.pend := by
    rw [hsh]
    apply Nat.mod_eq_of_lt
    unfold U64
    unfold U32 at hp
    omega
  rw [hcc, hmod, Nat.lor_comm]
  rw [← Nat.mul_add_lt_is_or (by rw [h32]; unfold U32 at hc; omega : p.cur < 2 ^ 32) p.pend]
  unfold U32
  omega

theorem LOWER_packPair {p : Idxpair} (hc : p.cur < U32) (hp : p.pend < U32) :
    LOWER (packPair p) = p.cur := by
  rw [packPair_eq hc hp]
  unfold LOWER U32 at *
  omega

theorem UPPER_packPair {p : Idxpair} (hc : p.cur < U32) (hp : p.pend < U32) :
    UPPER (packPair p) = p.pend := by
  rw [packPair_eq hc hp]
  unfold UPPER
  rw [Nat.shiftRight_eq_div_pow]
  have h32 : (2:Nat) ^ 32 = 4294967296 := by norm_num
  rw [h32]
  unfold U32 at *
  omega

theorem packPair_lt {p : Idxpair} (hc : p.cur < U32) (hp : p.pend < U32) :
    packPair p < U64 := by
  rw [packPair_eq hc hp]
  unfold U32 U64 at *
  omega

theorem release_nonblk_step_done {w idx n : Nat} (h : w = TOLOWER idx) :
    release_nonblk_step w idx n = NBStep.done (TOLOWER (idx + n)) := by
  unfold release_nonblk_step
  rw [if_pos h]

theorem release_nonblk_step_wait {w idx n : Nat} (h1 : w ≠ TOLOWER idx)
    (h2 : sub32 (TOLOWER (idx + n)) (LOWER w) > PENDMAX) :
    release_nonblk_step w idx n = NBStep.wait := by
  unfold release_nonblk_step
  rw [if_neg h1]
  dsimp only
  rw [if_pos h2]

theorem release_nonblk_step_publish {w idx n : Nat} (h1 : w ≠ TOLOWER idx)
    (h2 : ¬ sub32 (TOLOWER (idx + n)) (LOWER w) > PENDMAX) :
    release_nonblk_step w idx n =
      NBStep.publish
        (TOLOWER (w + ctz64 (compl64
            (UPPER w ||| TOLOWER (((1 <<< n) - 1) <<< sub32 idx (LOWER w))))) |||
          TOUPPER ((UPPER w ||| TOLOWER (((1 <<< n) - 1) <<< sub32 idx (LOWER w))) >>>
            ctz64 (compl64
              (UPPER w ||| TOLOWER (((1 <<< n) - 1) <<< sub32 idx (LOWER w)))))) := by
  unfold release_nonblk_step
  rw [if_neg h1]
  dsimp only
  rw [if_neg h2]

theorem ctzAux_compl (f : Nat) : ∀ (g x : Nat), x < 2 ^ g → f ≤ g →
    ctzAux f (2 ^ g - 1 - x) = trailingOnesAux f x := by
  induction f with
  | zero => intro g x hx hf; rfl
  | succ f ih =>
    intro g x hx hf
    have hg : 1 ≤ g := by omega
    have hpow : (2:Nat) ^ g = 2 * 2 ^ (g - 1) := by
      conv_lhs => rw [show g = (g - 1) + 1 from by omega]
      ring
    unfold ctzAux trailingOnesAux
    by_cases hx2 : x % 2 = 1
    · rw [if_pos hx2, if_pos (by omega : (2 ^ g - 1 - x) % 2 = 0)]
      have hdiv : (2 ^ g - 1 - x) / 2 = 2 ^ (g - 1) - 1 - x / 2 := by omega
      rw [hdiv, ih (g - 1) (x / 2) (by omega) (by omega)]
    · rw [if_neg (by omega : ¬ (2 ^ g - 1 - x) % 2 = 0), if_neg hx2]

theorem ctz64_compl64 {x : Nat} (hx : x < U64) : ctz64 (compl64 x) = trailingOnes x := by
  unfold ctz64 compl64 trailingOnes
  have h : U64 = 2 ^ 64 := by unfold U64; norm_num
  rw [h] at hx ⊢
  exact ctzAux_compl 64 64 x hx (Nat.le_refl 64)

theorem ourpend_lt {n o : Nat} (h : n + o ≤ 32) : (2 ^ n - 1) * 2 ^ o < U32 := by
  have hn : 0 < (2:Nat) ^ n := Nat.two_pow_pos n
  have h1 : (2 ^ n - 1) * 2 ^ o < 2 ^ n * 2 ^ o :=
    mul_lt_mul_of_pos_right (by omega) (Nat.two_pow_pos o)
  have h2 : (2:Nat) ^ n * 2 ^ o = 2 ^ (n + o) := (pow_add 2 n o).symm
  have h3 : (2:Nat) ^ (n + o) ≤ 2 ^ 32 := Nat.pow_le_pow_right (by omega) h
  have h4 : (2:Nat) ^ 32 = 4294967296 := by norm_num
  unfold U32
  omega

/-- C3: the FLAG_NONBLK branch of `release_slots` implements the spec's
non-blocking release: one step on the 64-bit idxpair cell either succeeds
with the in-order CAS `{cur: idx, pend: 0} -> {cur: idx + n, pend: 0}`,
waits while `(idx + n) - cur` exceeds PENDMAX, or publishes out of order by
setting the pending bits `[idx - cur, idx - cur + n)`, counting the
trailing ones of the new pending mask, and advancing `cur` by that count
while shifting `pend` right by the same count in one combined CAS.  The
hypotheses bound the fields to their C types and assume the code's own
assertions (`n < PENDMAX`, `n + offset <= PENDMAX`) in the case that
reaches the pending-bit publication. -/
theorem release_nonblk_step_refines (p : Idxpair) (idx n : Nat)
    (hc : p.cur < U32) (hp : p.pend < U32) (hi : idx < U32) (_hn : 1 ≤ n)
    (hassert : (n < PENDMAX ∧ sub32 idx p.cur + n ≤ PENDMAX) ∨
      sub32 (idx + n) p.cur > PENDMAX ∨ (p.cur = idx ∧ p.pend = 0)) :
    release_nonblk_step (packPair p) idx n = liftNB (release_nonblk_spec p idx n) := by
  have hLp := LOWER_packPair hc hp
  have hUp := UPPER_packPair hc hp
  have hpack := packPair_eq hc hp
  have hdelta : sub32 (TOLOWER (idx + n)) (LOWER (packPair p)) = sub32 (idx + n) p.cur := by
    rw [hLp]
    unfold sub32 TOLOWER U32
    omega
  by_cases hdone : p.cur = idx ∧ p.pend = 0
  · have hw : packPair p = TOLOWER idx := by
      rw [hpack, hdone.1, hdone.2]
      unfold TOLOWER U32 at *
      omega
    rw [release_nonblk_step_done hw]
    rw [show release_nonblk_spec p idx n = NBStepSpec.done ⟨(idx + n) % U32, 0⟩ from by
      unfold release_nonblk_spec
      rw [if_pos hdone]]
    show _ = NBStep.done (packPair ⟨(idx + n) % U32, 0⟩)
    have hval : TOLOWER (idx + n) = packPair ⟨(idx + n) % U32, 0⟩ := by
      rw [@packPair_eq ⟨(idx + n) % U32, 0⟩
        (show (idx + n) % U32 < U32 by unfold U32; omega)
        (show (0:Nat) < U32 by unfold U32; omega)]
      show TOLOWER (idx + n) = (idx + n) % U32 + U32 * 0
      unfold TOLOWER U32
      omega
    rw [hval]
  · have hwne : packPair p ≠ TOLOWER idx := by
      intro he
      apply hdone
      rw [hpack] at he
      unfold TOLOWER at he
      have hii : idx % U32 = idx := Nat.mod_eq_of_lt hi
      rw [hii] at he
      unfold U32 at *
      omega
    have hspecne : release_nonblk_spec p idx n =
        (if sub32 (idx + n) p.cur > PENDMAX then NBStepSpec.wait
          else NBStepSpec.publish
            ⟨(p.cur + trailingOnes (p.pend ||| ((2 ^ n - 1) * 2 ^ sub32 idx p.cur))) % U32,
              (p.pend ||| ((2 ^ n - 1) * 2 ^ sub32 idx p.cur)) >>>
                trailingOnes (p.pend ||| ((2 ^ n - 1) * 2 ^ sub32 idx p.cur))⟩) := by
      unfold release_nonblk_spec
      rw [if_neg hdone]
    by_cases hwait : sub32 (idx + n) p.cur > PENDMAX
    · rw [release_nonblk_step_wait hwne (by rw [hdelta]; exact hwait)]
      rw [hspecne, if_pos hwait]
      rfl
    · obtain ⟨hn32, hoff⟩ : n < PENDMAX ∧ sub32 idx p.cur + n ≤ PENDMAX := by
        rcases hassert with h | h | h
        · exact h
        · exact absurd h hwait
        · exact absurd h hdone
      rw [release_nonblk_step_publish hwne (by rw [hdelta]; exact hwait)]
      rw [hspecne, if_neg hwait]
      show NBStep.publish _ = NBStep.publish _
      have hoffeq : sub32 idx (LOWER (packPair p)) = sub32 idx p.cur := by rw [hLp]
      have hourpend : TOLOWER (((1 <<< n) - 1) <<< sub32 idx (LOWER (packPair p)))
          = (2 ^ n - 1) * 2 ^ sub32 idx p.cur := by
        rw [hoffeq, Nat.one_shiftLeft, Nat.shiftLeft_eq]
        unfold TOLOWER
        exact Nat.mod_eq_of_lt (ourpend_lt (by unfold PENDMAX at *; omega))
      rw [hourpend, hUp]
      set np := p.pend ||| ((2 ^ n - 1) * 2 ^ sub32 idx p.cur) with hnp
      have hnplt : np < U32 := by
        rw [hnp]
        have h32 : U32 = 2 ^ 32 := by unfold U32; norm_num
        rw [h32]
        apply Nat.or_lt_two_pow
        · rw [← h32]; exact hp
        · rw [← h32]
          exact ourpend_lt (by unfold PENDMAX at *; omega)
      have hctz : ctz64 (compl64 np) = trailingOnes np :=
        ctz64_compl64 (by unfold U32 U64 at *; omega)
      rw [hctz]
      have hlow : TOLOWER (packPair p + trailingOnes np)
          = TOLOWER ((p.cur + trailingOnes np) % U32) := by
        rw [hpack]
        unfold TOLOWER U32
        omega
      rw [hlow]
      rfl

theorem release_nonblk_step_refines_witness :
    ((100:Nat) < U32 ∧ (2:Nat) < U32 ∧ (102:Nat) < U32 ∧ (1:Nat) ≤ 1 ∧
      ((1 < PENDMAX ∧ sub32 102 100 + 1 ≤ PENDMAX) ∨
        sub32 (102 + 1) 100 > PENDMAX ∨ ((100:Nat) = 102 ∧ (2:Nat) = 0))) ∧
    release_nonblk_step (packPair ⟨100, 2⟩) 102 1 = liftNB (release_nonblk_spec ⟨100, 2⟩ 102 1) :=
  ⟨⟨by decide, by decide, by decide, by decide, Or.inl (by decide)⟩,
    release_nonblk_step_refines ⟨100, 2⟩ 102 1 (by decide) (by decide) (by decide)
      (by decide) (Or.inl (by decide))⟩

/-- C4: a non-blocking release by a single caller on a quiescent cell
(`loc->cur == idx`, `loc->pend == 0`, no concurrent releasers) succeeds
with the initial in-order CAS for every release length `n`, so the
pending-bitmap branch — whose assertions require `n < PENDMAX` and
`n + offset <= PENDMAX` — is unreachable; consequently an NBENQ enqueue of
PENDMAX + 1 = 33 elements by a single caller on a quiescent ring of
capacity 64 succeeds atomically in one call. -/
theorem nonblk_quiescent_release (idx n : Nat) (hi : idx < U32) :
    release_nonblk_step (packPair ⟨idx, 0⟩) idx n = NBStep.done (TOLOWER (idx + n)) ∧
    ∀ ev : Nat → Elem,
      (p64_ringbuf_enqueue FLAG_NONBLK (allocState 64 P64_RINGBUF_F_NBENQ) ev 33).map
        Prod.fst = some 33 := by
  constructor
  · apply release_nonblk_step_done
    rw [@packPair_eq ⟨idx, 0⟩ hi (show (0:Nat) < U32 by unfold U32; omega)]
    show idx + U32 * 0 = TOLOWER idx
    unfold TOLOWER
    rw [Nat.mod_eq_of_lt hi]
    omega
  · intro ev
    rfl

theorem nonblk_quiescent_release_witness :
    (7:Nat) < U32 ∧
      release_nonblk_step (packPair ⟨7, 0⟩) 7 40 = NBStep.done (TOLOWER (7 + 40)) :=
  ⟨by decide, (nonblk_quiescent_release 7 40 (by decide)).1⟩

/-- C8: for a lock-free (LFDEQ) consumer, `p64_ringbuf_release_` on a
dequeue result is exactly the CAS advancing `prod.head.cur` from `r.index`
to `r.index + r.actual`: it returns true and performs that single update
when the CAS succeeds, and returns false leaving the state unchanged when
it fails; for an enqueue release, and for every non-lock-free dequeue
release, the function returns true whenever it returns. -/
theorem ringbuf_release_modes (pf cf : Nat) (st : Ringbuf) (r : RingbufResult) :
    (cf &&& FLAG_LOCKFREE ≠ 0 →
      p64_ringbuf_release_ pf cf st r false =
        if st.prod.head.cur = u32 r.index then
          some (true, { st with prod := { st.prod with
            head := { st.prod.head with cur := add32 r.index r.actual } } })
        else some (false, st)) ∧
    (∀ b st2, p64_ringbuf_release_ pf cf st r true = some (b, st2) → b = true) ∧
    (cf &&& FLAG_LOCKFREE = 0 → ∀ b st2,
      p64_ringbuf_release_ pf cf st r false = some (b, st2) → b = true) := by
  refine ⟨?_, ?_, ?_⟩
  · intro hlf
    unfold p64_ringbuf_release_
    rw [if_neg (by simp), if_pos hlf]
  · intro b st2 h
    unfold p64_ringbuf_release_ at h
    rw [if_pos rfl] at h
    split at h
    · exact absurd h (by simp)
    · simp only [Option.some.injEq, Prod.mk.injEq] at h
      exact h.1.symm
  · intro hlf b st2 h
    unfold p64_ringbuf_release_ at h
    rw [if_neg (by simp), if_neg (by simp [hlf])] at h
    split at h
    · exact absurd h (by simp)
    · simp only [Option.some.injEq, Prod.mk.injEq] at h
      exact h.1.symm

theorem ringbuf_release_modes_witness :
    ((3:Nat) &&& FLAG_LOCKFREE ≠ 0) ∧
      p64_ringbuf_release_ FLAG_NONBLK 3 lfDemo ⟨0, 1, 7⟩ false =
        if lfDemo.prod.head.cur = u32 (RingbufResult.index ⟨0, 1, 7⟩) then
          some (true, { lfDemo with prod := { lfDemo.prod with
            head := { lfDemo.prod.head with
              cur := add32 (RingbufResult.index ⟨0, 1, 7⟩) (RingbufResult.actual ⟨0, 1, 7⟩) } } })
        else some (false, lfDemo) :=
  ⟨by decide, (ringbuf_release_modes FLAG_NONBLK 3 lfDemo ⟨0, 1, 7⟩).1 (by decide)⟩

theorem copy_voidptr_eval (dst : Nat → Elem) (dstBase : Nat) (src : Nat → Elem) :
    ∀ (num x : Nat), copy_voidptr dst dstBase src num x
      = if dstBase ≤ x ∧ x < dstBase + num then src (x - dstBase) else dst x := by
  intro num
  induction num with
  | zero =>
    intro x
    rw [if_neg (by omega)]
    rfl
  | succ b ih =>
    intro x
    show Function.update (copy_voidptr dst dstBase src b) (dstBase + b) (src b) x = _
    rw [Function.update_apply]
    by_cases hx : x = dstBase + b
    · rw [if_pos hx, if_pos (by omega)]
      rw [hx, Nat.add_sub_cancel_left]
    · rw [if_neg hx, ih x]
      by_cases hin : dstBase ≤ x ∧ x < dstBase + b
      · rw [if_pos hin, if_pos (by omega)]
      · rw [if_neg hin, if_neg (by omega)]

theorem write_slots_eval (rbring ev : Nat → Elem) (r : RingbufResult)
    (h1 : 1 ≤ r.actual) (hle : r.actual + (r.index &&& r.mask) ≤ r.mask + 1) :
    ∀ x, write_slots rbring ev r x =
      if r.index &&& r.mask ≤ x ∧ x < (r.index &&& r.mask) + r.actual
      then ev (x - (r.index &&& r.mask)) else rbring x := by
  intro x
  unfold write_slots
  by_cases ha1 : r.actual ≤ 1
  · rw [if_pos ha1]
    rw [Function.update_apply]
    by_cases hx : x = r.index &&& r.mask
    · rw [if_pos hx, if_pos (by omega)]
      rw [hx, Nat.sub_self]
    · rw [if_neg hx, if_neg (by omega)]
  · rw [if_neg ha1]
    try dsimp only
    rw [if_pos (by omega : r.actual ≤ r.mask + 1 - (r.index &&& r.mask))]
    rw [copy_voidptr_eval]

theorem write_slots_eval_wrap (rbring ev : Nat → Elem) (r : RingbufResult)
    (h1 : 1 < r.actual) (hbase : r.index &&& r.mask ≤ r.mask)
    (h2 : r.actual ≤ r.mask + 1)
    (hseg : r.mask + 1 - (r.index &&& r.mask) < r.actual) :
    ∀ x, write_slots rbring ev r x =
      if r.index &&& r.mask ≤ x ∧ x < r.mask + 1
      then ev (x - (r.index &&& r.mask))
      else if x < r.actual - (r.mask + 1 - (r.index &&& r.mask))
      then ev ((r.mask + 1 - (r.index &&& r.mask)) + x)
      else rbring x := by
  intro x
  unfold write_slots
  rw [if_neg (by omega : ¬ r.actual ≤ 1)]
  try dsimp only
  rw [if_neg (by omega : ¬ r.actual ≤ r.mask + 1 - (r.index &&& r.mask))]
  rw [copy_voidptr_eval, copy_voidptr_eval]
  try dsimp only
  split_ifs <;> first
  | rfl
  | (exact congrArg ev (by omega))
  | (exfalso; omega)

theorem read_slots_eval (rbring ev : Nat → Elem) (r : RingbufResult)
    (hle : r.actual + (r.index &&& r.mask) ≤ r.mask + 1) :
    ∀ j, j < r.actual → read_slots rbring ev r j = rbring ((r.index &&& r.mask) + j) := by
  intro j hj
  unfold read_slots
  by_cases ha1 : r.actual ≤ 1
  · rw [if_pos ha1]
    have hj0 : j = 0 := by omega
    rw [hj0, Function.update_apply, if_pos rfl, Nat.add_zero]
  · rw [if_neg ha1]
    try dsimp only
    rw [if_pos (by omega : r.actual ≤ r.mask + 1 - (r.index &&& r.mask))]
    rw [copy_voidptr_eval]
    rw [if_pos (by omega)]
    rw [Nat.sub_zero]

theorem read_slots_eval_wrap (rbring ev : Nat → Elem) (r : RingbufResult)
    (h1 : 1 < r.actual)
    (hseg : r.mask + 1 - (r.index &&& r.mask) < r.actual) :
    ∀ j, j < r.actual → read_slots rbring ev r j =
      if j < r.mask + 1 - (r.index &&& r.mask)
      then rbring ((r.index &&& r.mask) + j)
      else rbring (j - (r.mask + 1 - (r.index &&& r.mask))) := by
  intro j hj
  unfold read_slots
  rw [if_neg (by omega : ¬ r.actual ≤ 1)]
  try dsimp only
  rw [if_neg (by omega : ¬ r.actual ≤ r.mask + 1 - (r.index &&& r.mask))]
  rw [copy_voidptr_eval, copy_voidptr_eval]
  try dsimp only
  split_ifs <;> first
  | rfl
  | (exact congrArg rbring (by omega))
  | (exfalso; omega)

theorem base_le_mask {k : Nat} (r : RingbufResult) (hmask : r.mask = 2 ^ k - 1) :
    r.index &&& r.mask ≤ r.mask := by
  rw [hmask, Nat.and_pow_two_sub_one_eq_mod]
  have := Nat.mod_lt r.index (Nat.two_pow_pos k)
  omega

/-- Round-trip of the slot copy routines: reading after writing with the
same acquire result recovers the written elements. -/
theorem write_read_slots_roundtrip (k : Nat) (r : RingbufResult)
    (rbring ev ev0 : Nat → Elem)
    (hmask : r.mask = 2 ^ k - 1) (h1 : 1 ≤ r.actual) (h2 : r.actual ≤ 2 ^ k) :
    ∀ j, j < r.actual → read_slots (write_slots rbring ev r) ev0 r j = ev j := by
  intro j hj
  have hbase := base_le_mask r hmask
  have hm1 : r.mask + 1 = 2 ^ k := by
    have := Nat.two_pow_pos k
    omega
  by_cases hwrap : r.actual + (r.index &&& r.mask) ≤ r.mask + 1
  · rw [read_slots_eval _ _ _ hwrap j hj]
    rw [write_slots_eval _ _ _ h1 hwrap]
    rw [if_pos (by omega)]
    exact congrArg ev (by omega)
  · have hseg : r.mask + 1 - (r.index &&& r.mask) < r.actual := by omega
    have h1lt : 1 < r.actual := by omega
    rw [read_slots_eval_wrap _ _ _ h1lt hseg j hj]
    by_cases hjs : j < r.mask + 1 - (r.index &&& r.mask)
    · rw [if_pos hjs]
      rw [write_slots_eval_wrap _ _ _ h1lt hbase (by omega) hseg]
      rw [if_pos (by omega)]
      exact congrArg ev (by omega)
    · rw [if_neg hjs]
      rw [write_slots_eval_wrap _ _ _ h1lt hbase (by omega) hseg]
      rw [if_neg (by omega), if_pos (by omega)]
      exact congrArg ev (by omega)

theorem acquire_slots_one {headv tailv mask cap av : Nat}
    (h : sub32 (cap + headv) tailv = av) (h1 : 1 ≤ av) (h2 : av < 2147483648) :
    acquire_slots headv tailv mask (toInt32 1) cap = ⟨tailv, 1, mask⟩ := by
  unfold acquire_slots
  rw [h, toInt32_of_lt h2, (by decide : toInt32 1 = (1:Int))]
  have hmin : min (1 : Int) (av : Int) = (1:Int) := min_eq_left (by exact_mod_cast h1)
  rw [hmin, if_neg (by norm_num)]
  rfl

theorem acquire_slots_mtsafe_one {ep : Endpoint} {mask av : Nat}
    (h : sub32 (ep.capacity + ep.head.cur) ep.tail = av) (h1 : 1 ≤ av)
    (h2 : av < 2147483648) :
    acquire_slots_mtsafe ep mask (toInt32 1) =
      (⟨ep.tail, 1, mask⟩, { ep with tail := add32 ep.tail 1 }) := by
  unfold acquire_slots_mtsafe
  rw [h, toInt32_of_lt h2, (by decide : toInt32 1 = (1:Int))]
  have hmin : min (1 : Int) (av : Int) = (1:Int) := min_eq_left (by exact_mod_cast h1)
  rw [hmin, if_neg (by norm_num)]
  rfl

theorem release_slots_sp (loc : Idxpair) (idx n : Nat) (lo : Bool) :
    release_slots loc idx n lo 0 = some ⟨add32 idx n, loc.pend⟩ := by
  unfold release_slots
  rw [if_neg (by simp [FLAG_BLK]), if_pos (by decide)]

theorem release_slots_blk (loc : Idxpair) (idx n : Nat) (lo : Bool)
    (h : loc.cur = u32 idx) :
    release_slots loc idx n lo FLAG_BLK = some ⟨add32 idx n, loc.pend⟩ := by
  unfold release_slots
  rw [if_neg (by simp [h]), if_pos (by decide)]

theorem unpackPair_TOLOWER (x : Nat) : unpackPair (TOLOWER x) = ⟨x % U32, 0⟩ := by
  unfold unpackPair LOWER UPPER TOLOWER
  rw [Nat.shiftRight_eq_div_pow]
  have h32 : (2:Nat) ^ 32 = 4294967296 := by norm_num
  rw [h32]
  unfold U32
  congr 1 <;> omega

theorem release_slots_nonblk_quiescent (loc : Idxpair) (idx n : Nat) (lo : Bool)
    (hcur : loc.cur = u32 idx) (hpend : loc.pend = 0) :
    release_slots loc idx n lo FLAG_NONBLK = some ⟨add32 idx n, 0⟩ := by
  unfold release_slots
  rw [if_neg (by simp [FLAG_NONBLK, FLAG_BLK]), if_neg (by decide)]
  unfold release_slots_nonblk
  have hw : packPair loc = TOLOWER idx := by
    rw [@packPair_eq loc
      (by rw [hcur]; exact Nat.mod_lt _ (by unfold U32; omega))
      (by rw [hpend]; unfold U32; omega)]
    rw [hcur, hpend]
    unfold TOLOWER u32
    omega
  rw [release_nonblk_step_done hw]
  show some (unpackPair (TOLOWER (idx + n))) = _
  rw [unpackPair_TOLOWER]
  rfl

theorem write_slots_one (rbring ev : Nat → Elem) (t m : Nat) :
    write_slots rbring ev ⟨t, 1, m⟩ = Function.update rbring (t &&& m) (ev 0) := rfl

theorem read_slots_one (rbring ev : Nat → Elem) (t m : Nat) :
    read_slots rbring ev ⟨t, 1, m⟩ = Function.update ev 0 (rbring (t &&& m)) := rfl

theorem nbenq_write_one (rbring ev : Nat → Elem) (t m : Nat) :
    nbenq_write rbring ev ⟨t, 1, m⟩ = Function.update rbring (t &&& m) (ev 0) := rfl

theorem enqueue_one_sp {st : Ringbuf} {t kk : Nat} (v : Elem) (hq : Quiescent st t kk) :
    p64_ringbuf_enqueue 0 st (fun _ => v) 1 =
      some (1, { st with
        ring := Function.update st.ring (t &&& (2 ^ kk - 1)) v,
        cons := { st.cons with head := ⟨add32 t 1, 0⟩ } }) := by
  obtain ⟨hph, hpt, hch, hct, hpm, hcm, ht, hc1, hc2, hcc⟩ := hq
  have hphc : st.prod.head.cur = t := by rw [hph]
  have hchc : st.cons.head.cur = t := by rw [hch]
  have hchp : st.cons.head.pend = 0 := by rw [hch]
  have hsub : sub32 (st.prod.capacity + t) t = st.prod.capacity :=
    sub32_add_cancel (by unfold U32 at *; omega) ht
  unfold p64_ringbuf_enqueue
  rw [if_pos (by decide : (0:Nat) &&& (FLAG_BLK ||| FLAG_NONBLK) = 0)]
  rw [hphc, hchc, hpm]
  rw [acquire_slots_one (by rw [hsub]) hc1 hc2]
  rw [if_neg (show ¬ (RingbufResult.mk t 1 (2 ^ kk - 1)).actual = 0 by simp)]
  rw [if_neg (by decide : ¬ (0:Nat) &&& FLAG_NONBLK ≠ 0)]
  show (match release_slots st.cons.head t 1 false 0 with
    | none => none
    | some h => some (1, { st with
        ring := write_slots st.ring (fun _ => v) ⟨t, 1, 2 ^ kk - 1⟩,
        cons := { st.cons with head := h } })) = _
  rw [release_slots_sp, hchp, write_slots_one, hpm]

theorem enqueue_one_blk {st : Ringbuf} {t kk : Nat} (v : Elem) (hq : Quiescent st t kk) :
    p64_ringbuf_enqueue FLAG_BLK st (fun _ => v) 1 =
      some (1, { st with
        prod := { st.prod with tail := add32 t 1 },
        ring := Function.update st.ring (t &&& (2 ^ kk - 1)) v,
        cons := { st.cons with head := ⟨add32 t 1, 0⟩ } }) := by
  obtain ⟨hph, hpt, hch, hct, hpm, hcm, ht, hc1, hc2, hcc⟩ := hq
  have hphc : st.prod.head.cur = t := by rw [hph]
  have hchc : st.cons.head.cur = t := by rw [hch]
  have hchp : st.cons.head.pend = 0 := by rw [hch]
  have hsub : sub32 (st.prod.capacity + st.prod.head.cur) st.prod.tail
      = st.prod.capacity := by
    rw [hphc, hpt]
    exact sub32_add_cancel (by unfold U32 at *; omega) ht
  unfold p64_ringbuf_enqueue
  rw [if_neg (by decide : ¬ FLAG_BLK &&& (FLAG_BLK ||| FLAG_NONBLK) = 0)]
  rw [acquire_slots_mtsafe_one hsub hc1 hc2]
  dsimp only
  rw [if_neg (by simp : ¬ (1:Nat) = 0)]
  rw [if_neg (by decide : ¬ FLAG_BLK &&& FLAG_NONBLK ≠ 0)]
  rw [hpt, hpm, write_slots_one]
  rw [release_slots_blk st.cons.head t 1 false (by rw [hchc]; unfold u32 U32 at *; omega)]
  rw [hchp]

theorem enqueue_one_nb {st : Ringbuf} {t kk : Nat} (v : Elem) (hq : Quiescent st t kk) :
    p64_ringbuf_enqueue FLAG_NONBLK st (fun _ => v) 1 =
      some (1, { st with
        prod := { st.prod with tail := add32 t 1 },
        ring := Function.update st.ring (t &&& (2 ^ kk - 1)) v,
        cons := { st.cons with head := ⟨add32 t 1, 0⟩ } }) := by
  obtain ⟨hph, hpt, hch, hct, hpm, hcm, ht, hc1, hc2, hcc⟩ := hq
  have hphc : st.prod.head.cur = t := by rw [hph]
  have hchc : st.cons.head.cur = t := by rw [hch]
  have hchp : st.cons.head.pend = 0 := by rw [hch]
  have hsub : sub32 (st.prod.capacity + st.prod.head.cur) st.prod.tail
      = st.prod.capacity := by
    rw [hphc, hpt]
    exact sub32_add_cancel (by unfold U32 at *; omega) ht
  unfold p64_ringbuf_enqueue
  rw [if_neg (by decide : ¬ FLAG_NONBLK &&& (FLAG_BLK ||| FLAG_NONBLK) = 0)]
  rw [acquire_slots_mtsafe_one hsub hc1 hc2]
  dsimp only
  rw [if_neg (by simp : ¬ (1:Nat) = 0)]
  rw [if_pos (by decide : FLAG_NONBLK &&& FLAG_NONBLK ≠ 0)]
  rw [hpt, hpm, nbenq_write_one]
  rw [release_slots_nonblk_quiescent st.cons.head t 1 false
    (by rw [hchc]; unfold u32 U32 at *; omega) hchp]

theorem enqueue_one_modes {st : Ringbuf} {t kk : Nat} (pf : Nat) (v : Elem)
    (hpf : pf = 0 ∨ pf = FLAG_BLK ∨ pf = FLAG_NONBLK) (hq : Quiescent st t kk) :
    ∃ st2, p64_ringbuf_enqueue pf st (fun _ => v) 1 = some (1, st2) ∧
      QuiescentPlus1 st2 t kk v := by
  obtain ⟨hph, hpt, hch, hct, hpm, hcm, ht, hc1, hc2, hcc⟩ := hq
  rcases hpf with rfl | rfl | rfl
  · exact ⟨_, enqueue_one_sp v ⟨hph, hpt, hch, hct, hpm, hcm, ht, hc1, hc2, hcc⟩,
      hph, rfl, hct, hcm, ht, hcc, Function.update_same _ _ _⟩
  · exact ⟨_, enqueue_one_blk v ⟨hph, hpt, hch, hct, hpm, hcm, ht, hc1, hc2, hcc⟩,
      hph, rfl, hct, hcm, ht, hcc, Function.update_same _ _ _⟩
  · exact ⟨_, enqueue_one_nb v ⟨hph, hpt, hch, hct, hpm, hcm, ht, hc1, hc2, hcc⟩,
      hph, rfl, hct, hcm, ht, hcc, Function.update_same _ _ _⟩

theorem dequeue_one_sc {st : Ringbuf} {t kk : Nat} {v : Elem}
    (hq : QuiescentPlus1 st t kk v) :
    ∃ out i st3, p64_ringbuf_dequeue 0 st (fun _ => 0) 1 = some (1, out, i, st3) ∧
      out 0 = v := by
  obtain ⟨hph, hch, hct, hcm, ht, hcc, hv⟩ := hq
  have hphc : st.prod.head.cur = t := by rw [hph]
  have hphp : st.prod.head.pend = 0 := by rw [hph]
  have hchc : st.cons.head.cur = add32 t 1 := by rw [hch]
  have heq : p64_ringbuf_dequeue 0 st (fun _ => 0) 1 =
      some (1, Function.update (fun _ => (0:Elem)) 0 (st.ring (t &&& (2 ^ kk - 1))), t,
        { st with prod := { st.prod with head := ⟨add32 t 1, 0⟩ } }) := by
    have hs1 : sub32 (0 + st.cons.head.cur) st.prod.head.cur = 1 := by
      rw [Nat.zero_add, hphc, hchc]
      exact sub32_succ_cancel ht
    unfold p64_ringbuf_dequeue
    rw [if_neg (by decide : ¬ (0:Nat) &&& FLAG_LOCKFREE ≠ 0)]
    rw [if_pos (by decide : (0:Nat) &&& (FLAG_BLK ||| FLAG_NONBLK) = 0)]
    rw [acquire_slots_one hs1 (by omega) (by norm_num)]
    dsimp only
    rw [if_neg (by simp : ¬ (1:Nat) = 0)]
    rw [hphc, read_slots_one]
    rw [release_slots_sp, hphp, hcm]
  exact ⟨_, _, _, heq, by rw [Function.update_same]; exact hv⟩

theorem dequeue_one_mc {st : Ringbuf} {t kk : Nat} {v : Elem}
    (hq : QuiescentPlus1 st t kk v) :
    ∃ out i st3,
      p64_ringbuf_dequeue FLAG_BLK st (fun _ => 0) 1 = some (1, out, i, st3) ∧
      out 0 = v := by
  obtain ⟨hph, hch, hct, hcm, ht, hcc, hv⟩ := hq
  have hphc : st.prod.head.cur = t := by rw [hph]
  have hphp : st.prod.head.pend = 0 := by rw [hph]
  have hchc : st.cons.head.cur = add32 t 1 := by rw [hch]
  have hsub : sub32 (st.cons.capacity + st.cons.head.cur) st.cons.tail = 1 := by
    rw [hcc, hchc, hct, Nat.zero_add]
    exact sub32_succ_cancel ht
  have heq : p64_ringbuf_dequeue FLAG_BLK st (fun _ => 0) 1 =
      some (1, Function.update (fun _ => (0:Elem)) 0 (st.ring (t &&& (2 ^ kk - 1))), t,
        { st with
          prod := { st.prod with head := ⟨add32 t 1, 0⟩ },
          cons := { st.cons with tail := add32 t 1 } }) := by
    unfold p64_ringbuf_dequeue
    rw [if_neg (by decide : ¬ FLAG_BLK &&& FLAG_LOCKFREE ≠ 0)]
    rw [if_neg (by decide : ¬ FLAG_BLK &&& (FLAG_BLK ||| FLAG_NONBLK) = 0)]
    rw [acquire_slots_mtsafe_one hsub (by omega) (by norm_num)]
    dsimp only
    rw [if_neg (by simp : ¬ (1:Nat) = 0)]
    rw [hct, read_slots_one]
    rw [release_slots_blk st.prod.head t 1 true
      (by rw [hphc]; unfold u32 U32 at *; omega), hphp, hcm]
  exact ⟨_, _, _, heq, by rw [Function.update_same]; exact hv⟩

theorem dequeue_one_nbd {st : Ringbuf} {t kk : Nat} {v : Elem}
    (hq : QuiescentPlus1 st t kk v) :
    ∃ out i st3,
      p64_ringbuf_dequeue FLAG_NONBLK st (fun _ => 0) 1 = some (1, out, i, st3) ∧
      out 0 = v := by
  obtain ⟨hph, hch, hct, hcm, ht, hcc, hv⟩ := hq
  have hphc : st.prod.head.cur = t := by rw [hph]
  have hphp : st.prod.head.pend = 0 := by rw [hph]
  have hchc : st.cons.head.cur = add32 t 1 := by rw [hch]
  have hsub : sub32 (st.cons.capacity + st.cons.head.cur) st.cons.tail = 1 := by
    rw [hcc, hchc, hct, Nat.zero_add]
    exact sub32_succ_cancel ht
  have heq : p64_ringbuf_dequeue FLAG_NONBLK st (fun _ => 0) 1 =
      some (1, Function.update (fun _ => (0:Elem)) 0 (st.ring (t &&& (2 ^ kk - 1))), t,
        { st with
          prod := { st.prod with head := ⟨add32 t 1, 0⟩ },
          cons := { st.cons with tail := add32 t 1 } }) := by
    unfold p64_ringbuf_dequeue
    rw [if_neg (by decide : ¬ FLAG_NONBLK &&& FLAG_LOCKFREE ≠ 0)]
    rw [if_neg (by decide : ¬ FLAG_NONBLK &&& (FLAG_BLK ||| FLAG_NONBLK) = 0)]
    rw [acquire_slots_mtsafe_one hsub (by omega) (by norm_num)]
    dsimp only
    rw [if_neg (by simp : ¬ (1:Nat) = 0)]
    rw [hct, read_slots_one]
    rw [release_slots_nonblk_quiescent st.prod.head t 1 true
      (by rw [hphc]; unfold u32 U32 at *; omega) hphp, hcm]
  exact ⟨_, _, _, heq, by rw [Function.update_same]; exact hv⟩

theorem dequeue_one_lf {st : Ringbuf} {t kk : Nat} {v : Elem}
    (hq : QuiescentPlus1 st t kk v) :
    ∃ out i st3,
      p64_ringbuf_dequeue (FLAG_BLK ||| FLAG_LOCKFREE) st (fun _ => 0) 1
        = some (1, out, i, st3) ∧ out 0 = v := by
  obtain ⟨hph, hch, hct, hcm, ht, hcc, hv⟩ := hq
  have hphc : st.prod.head.cur = t := by rw [hph]
  have hchc : st.cons.head.cur = add32 t 1 := by rw [hch]
  have heq : p64_ringbuf_dequeue (FLAG_BLK ||| FLAG_LOCKFREE) st (fun _ => 0) 1 =
      some (1, Function.update (fun _ => (0:Elem)) 0 (st.ring (t &&& (2 ^ kk - 1))), t,
        { st with prod := { st.prod with
            head := { st.prod.head with cur := add32 t 1 } } }) := by
    have hs1 : sub32 st.cons.head.cur st.prod.head.cur = 1 := by
      rw [hphc, hchc]
      exact sub32_succ_cancel ht
    unfold p64_ringbuf_dequeue
    rw [if_pos (by decide : (FLAG_BLK ||| FLAG_LOCKFREE) &&& FLAG_LOCKFREE ≠ 0)]
    try dsimp only
    rw [hs1]
    rw [(by decide : min (toInt32 1) (toInt32 1) = (1:Int))]
    rw [if_neg (by norm_num : ¬ (1:Int) ≤ 0)]
    rw [show Int.toNat 1 = 1 from rfl]
    rw [hphc, read_slots_one, hcm]
  exact ⟨_, _, _, heq, by rw [Function.update_same]; exact hv⟩

/-- C5 (amended): reading the acquired slots after writing them with the
same `{index, actual, mask}` result recovers exactly the written elements;
the copy loop splits the run into the two contiguous segments `[0, seg0)`
and `[seg0, actual)` precisely when `actual + (index & mask) > mask + 1`;
and for every producer mode (SPENQ, MPENQ, NBENQ) and consumer mode
(SCDEQ, MCDEQ, NBDEQ, LFDEQ), enqueuing `v` and then dequeuing on an
otherwise-empty (quiescent) ring whose capacity is below `2^31` returns
`v`.  The capacity bound is forced by the counterexample: on an allocatable
empty ring of capacity `2^31` the free-slot count
`(int)(capacity + head - tail)` is negative and the first enqueue already
returns 0, so the unrestricted round-trip law of the original claim fails
there. -/
theorem ringbuf_write_read_roundtrip (k : Nat) (r : RingbufResult)
    (rbring ev ev0 : Nat → Elem)
    (hmask : r.mask = 2 ^ k - 1) (h1 : 1 ≤ r.actual) (h2 : r.actual ≤ 2 ^ k) :
    (∀ j, j < r.actual → read_slots (write_slots rbring ev r) ev0 r j = ev j) ∧
    (r.actual + (r.index &&& r.mask) > r.mask + 1 ↔
      1 < r.actual ∧ r.mask + 1 - (r.index &&& r.mask) < r.actual) ∧
    (∀ pf cf (st : Ringbuf) (t kk : Nat) (v : Elem),
      pf ∈ [0, FLAG_BLK, FLAG_NONBLK] →
      cf ∈ [0, FLAG_BLK, FLAG_NONBLK, FLAG_BLK ||| FLAG_LOCKFREE] →
      Quiescent st t kk →
      ∃ st2, p64_ringbuf_enqueue pf st (fun _ => v) 1 = some (1, st2) ∧
        ∃ out i st3,
          p64_ringbuf_dequeue cf st2 (fun _ => 0) 1 = some (1, out, i, st3) ∧
          out 0 = v) := by
  refine ⟨write_read_slots_roundtrip k r rbring ev ev0 hmask h1 h2, ?_, ?_⟩
  · have hbase := base_le_mask r hmask
    omega
  · intro pf cf st t kk v hpf hcf hq
    have hpf2 : pf = 0 ∨ pf = FLAG_BLK ∨ pf = FLAG_NONBLK := by
      simpa using hpf
    obtain ⟨st2, heq, hq2⟩ := enqueue_one_modes pf v hpf2 hq
    refine ⟨st2, heq, ?_⟩
    have hcf2 : cf = 0 ∨ cf = FLAG_BLK ∨ cf = FLAG_NONBLK ∨
        cf = FLAG_BLK ||| FLAG_LOCKFREE := by
      simpa using hcf
    rcases hcf2 with rfl | rfl | rfl | rfl
    · exact dequeue_one_sc hq2
    · exact dequeue_one_mc hq2
    · exact dequeue_one_nbd hq2
    · exact dequeue_one_lf hq2

theorem ringbuf_write_read_roundtrip_witness :
    ((RingbufResult.mask ⟨5, 3, 3⟩ = 2 ^ 2 - 1) ∧ 1 ≤ RingbufResult.actual ⟨5, 3, 3⟩ ∧
      RingbufResult.actual ⟨5, 3, 3⟩ ≤ 2 ^ 2) ∧
    (∀ j, j < RingbufResult.actual ⟨5, 3, 3⟩ →
      read_slots (write_slots (fun _ => 0) (fun i => i + 10) ⟨5, 3, 3⟩)
        (fun _ => 0) ⟨5, 3, 3⟩ j = (fun i => i + 10) j) :=
  ⟨⟨by decide, by decide, by decide⟩,
    (ringbuf_write_read_roundtrip 2 ⟨5, 3, 3⟩ (fun _ => 0) (fun i => i + 10)
      (fun _ => 0) (by decide) (by decide) (by decide)).1⟩

theorem sub32_of_le {a b : Nat} (hb : b ≤ a) (ha : a < U32) : sub32 a b = a - b := by
  unfold sub32 U32 at *
  omega

theorem acquire_slots_zero {headv tailv mask cap : Nat}
    (h : sub32 (cap + headv) tailv = 0) :
    acquire_slots headv tailv mask (toInt32 1) cap = ⟨0, 0, 0⟩ := by
  unfold acquire_slots
  rw [h, (by decide : toInt32 1 = (1:Int)), (by decide : toInt32 0 = (0:Int))]
  rw [(by decide : min (1:Int) 0 = (0:Int))]
  rw [if_pos (by norm_num : (0:Int) ≤ 0)]

theorem and_mask_eq_self {b nelems : Nat} (hb : b < nelems) (hn : nelems < U32) :
    b &&& (ROUNDUP_POW2 nelems - 1) = b := by
  unfold ROUNDUP_POW2
  rw [Nat.and_pow_two_sub_one_eq_mod]
  apply Nat.mod_eq_of_lt
  have h64 : (2:Nat) ^ 64 = 18446744073709551616 := by norm_num
  have hle : nelems ≤ 2 ^ clog2Aux 64 nelems :=
    clog2Aux_le (by omega) (by unfold U32 at hn; omega)
  omega

theorem spsc_alloc (nelems : Nat) (h1 : 1 ≤ nelems) (h2 : nelems < 2147483648) :
    p64_ringbuf_alloc nelems (P64_RINGBUF_F_SPENQ ||| P64_RINGBUF_F_SCDEQ) 8 =
      AllocResult.ok 0 0
        { prod := ⟨⟨0, 0⟩, 0, nelems⟩
          prodMask := ROUNDUP_POW2 nelems - 1
          cons := ⟨⟨0, 0⟩, 0, 0⟩
          consMask := ROUNDUP_POW2 nelems - 1
          ring := fun _ => 0 } := by
  unfold p64_ringbuf_alloc
  rw [if_neg (by unfold MAXELEMS; omega)]
  rw [if_neg (by decide)]
  rfl

theorem spscSt0_eq (nelems : Nat) (v : Nat → Elem) (h1 : 1 ≤ nelems)
    (h2 : nelems < 2147483648) :
    spscSt0 nelems = spscStK nelems v 0 := by
  unfold spscSt0 allocState
  rw [spsc_alloc nelems h1 h2]
  unfold spscStK
  congr 1

theorem spsc_enqueue_step (nelems : Nat) (v : Nat → Elem) (b : Nat)
    (h2 : nelems < 2147483648) (hb : b < nelems) :
    p64_ringbuf_enqueue 0 (spscStK nelems v b) (fun _ => v b) 1 =
      some (1, spscStK nelems v (b + 1)) := by
  have hU : nelems < U32 := by unfold U32; omega
  have hsub : sub32 (nelems + 0) b = nelems - b := by
    rw [Nat.add_zero]
    exact sub32_of_le (by omega) hU
  have hmask := and_mask_eq_self hb hU
  have hadd : add32 b 1 = b + 1 := by unfold add32 U32 at *; omega
  have hring : Function.update (fun i => if i < b then v i else 0) b (v b)
      = fun i => if i < b + 1 then v i else 0 := by
    funext i
    rw [Function.update_apply]
    by_cases hib : i = b
    · rw [if_pos hib, if_pos (by omega)]
      rw [hib]
    · rw [if_neg hib]
      by_cases hlt : i < b
      · rw [if_pos hlt, if_pos (by omega)]
      · rw [if_neg hlt, if_neg (by omega)]
  unfold p64_ringbuf_enqueue
  rw [if_pos (by decide : (0:Nat) &&& (FLAG_BLK ||| FLAG_NONBLK) = 0)]
  unfold spscStK
  dsimp only
  rw [acquire_slots_one hsub (by omega) (by omega)]
  dsimp only
  rw [if_neg (by simp : ¬ (1:Nat) = 0)]
  rw [if_neg (by decide : ¬ (0:Nat) &&& FLAG_NONBLK ≠ 0)]
  rw [write_slots_one, release_slots_sp]
  dsimp only
  rw [hmask, hadd, hring]

theorem spsc_run_eq (nelems : Nat) (v : Nat → Elem) (h1 : 1 ≤ nelems)
    (h2 : nelems < 2147483648) :
    ∀ b, b ≤ nelems → spscEnqRun nelems v b = some (spscStK nelems v b) := by
  intro b
  induction b with
  | zero =>
    intro _
    show some (spscSt0 nelems) = _
    rw [spscSt0_eq nelems v h1 h2]
  | succ c ih =>
    intro hc
    show (spscEnqRun nelems v c).bind _ = _
    rw [ih (by omega)]
    show (p64_ringbuf_enqueue 0 (spscStK nelems v c) (fun _ => v c) 1).map Prod.snd = _
    rw [spsc_enqueue_step nelems v c h2 (by omega)]
    rfl

theorem spsc_enqueue_full (nelems : Nat) (v : Nat → Elem)
    (h2 : nelems < 2147483648) :
    p64_ringbuf_enqueue 0 (spscStK nelems v nelems) (fun _ => v nelems) 1 =
      some (0, spscStK nelems v nelems) := by
  have hU : nelems < U32 := by unfold U32; omega
  have hsub : sub32 (nelems + 0) nelems = 0 := by
    rw [Nat.add_zero]
    rw [sub32_of_le (by omega) hU]
    omega
  unfold p64_ringbuf_enqueue
  rw [if_pos (by decide : (0:Nat) &&& (FLAG_BLK ||| FLAG_NONBLK) = 0)]
  unfold spscStK
  dsimp only
  rw [acquire_slots_zero hsub]
  dsimp only
  rw [if_pos rfl]

theorem spsc_dequeue_step (nelems : Nat) (v : Nat → Elem) (j : Nat)
    (h2 : nelems < 2147483648) (hj : j < nelems) :
    p64_ringbuf_dequeue 0 (spscDtK nelems v j) (fun _ => 0) 1 =
      some (1, Function.update (fun _ => (0:Elem)) 0 (v j), j,
        spscDtK nelems v (j + 1)) := by
  have hU : nelems < U32 := by unfold U32; omega
  have hsub : sub32 (0 + nelems) j = nelems - j := by
    rw [Nat.zero_add]
    exact sub32_of_le (by omega) hU
  have hmask := and_mask_eq_self hj hU
  have hadd : add32 j 1 = j + 1 := by unfold add32 U32 at *; omega
  unfold p64_ringbuf_dequeue
  rw [if_neg (by decide : ¬ (0:Nat) &&& FLAG_LOCKFREE ≠ 0)]
  rw [if_pos (by decide : (0:Nat) &&& (FLAG_BLK ||| FLAG_NONBLK) = 0)]
  unfold spscDtK
  dsimp only
  rw [acquire_slots_one hsub (by omega) (by omega)]
  dsimp only
  rw [if_neg (by simp : ¬ (1:Nat) = 0)]
  rw [read_slots_one, release_slots_sp]
  dsimp only
  rw [hmask, hadd, if_pos hj]

theorem spsc_deq_run_eq (nelems : Nat) (v : Nat → Elem) (h1 : 1 ≤ nelems)
    (h2 : nelems < 2147483648) :
    ∀ j, j ≤ nelems → spscDeqRun nelems v j = some (spscDtK nelems v j) := by
  intro j
  induction j with
  | zero =>
    intro _
    show spscEnqRun nelems v nelems = _
    rw [spsc_run_eq nelems v h1 h2 nelems (Nat.le_refl nelems)]
    rfl
  | succ c ih =>
    intro hc
    show (spscDeqRun nelems v c).bind _ = _
    rw [ih (by omega)]
    show (p64_ringbuf_dequeue 0 (spscDtK nelems v c) (fun _ => 0) 1).map _ = _
    rw [spsc_dequeue_step nelems v c h2 (by omega)]
    rfl

/-- C2 (amended): on a fresh SPENQ|SCDEQ ring of `nelems` elements with
`1 ≤ nelems < 2^31`, exactly `nelems` consecutive one-element enqueues
return 1 and the next returns 0 (the user-visible capacity is `nelems`,
not the power-of-two ring size), and the subsequent one-element dequeues
return the enqueued elements in enqueue order.  The original claim's range
"for every nelems ≥ 1" fails for `nelems ≥ 2^31`, where the capacity term
`(int)(capacity + head - tail)` is negative and every enqueue returns 0
(the limitation the spec itself flags in its design notes, despite
`MAXELEMS = 0xFFFFFFFF`). -/
theorem spsc_capacity_fifo (nelems : Nat) (v : Nat → Elem)
    (h1 : 1 ≤ nelems) (h2 : nelems < 2147483648) :
    (∀ b, b < nelems → spscEnqCount nelems v b = some 1) ∧
    spscEnqCount nelems v nelems = some 0 ∧
    (∀ j, j < nelems → spscDeqVal nelems v j = some (1, v j)) := by
  refine ⟨?_, ?_, ?_⟩
  · intro b hb
    unfold spscEnqCount
    rw [spsc_run_eq nelems v h1 h2 b (by omega)]
    show (p64_ringbuf_enqueue 0 (spscStK nelems v b) (fun _ => v b) 1).map Prod.fst = _
    rw [spsc_enqueue_step nelems v b h2 hb]
    rfl
  · unfold spscEnqCount
    rw [spsc_run_eq nelems v h1 h2 nelems (Nat.le_refl nelems)]
    show (p64_ringbuf_enqueue 0 (spscStK nelems v nelems) (fun _ => v nelems) 1).map
      Prod.fst = _
    rw [spsc_enqueue_full nelems v h2]
    rfl
  · intro j hj
    unfold spscDeqVal
    rw [spsc_deq_run_eq nelems v h1 h2 j (by omega)]
    show (p64_ringbuf_dequeue 0 (spscDtK nelems v j) (fun _ => 0) 1).map _ = _
    rw [spsc_dequeue_step nelems v j h2 hj]
    show some (1, Function.update (fun _ => (0:Elem)) 0 (v j) 0) = _
    rw [Function.update_same]

theorem spsc_capacity_fifo_witness :
    ((1:Nat) ≤ 4 ∧ (4:Nat) < 2147483648) ∧
      ((∀ b, b < 4 → spscEnqCount 4 (fun i => i + 65) b = some 1) ∧
        spscEnqCount 4 (fun i => i + 65) 4 = some 0 ∧
        (∀ j, j < 4 → spscDeqVal 4 (fun i => i + 65) j = some (1, (fun i => i + 65) j))) :=
  ⟨⟨by decide, by decide⟩, spsc_capacity_fifo 4 (fun i => i + 65) (by decide) (by decide)⟩

/-- C2 (counterexample): with `nelems = 2^31` — accepted by `alloc` since
`MAXELEMS = 0xFFFFFFFF` — the very first one-element enqueue on the fresh
ring returns 0, not 1: the free-slot count `(int)(capacity + head - tail)`
is `(int)2^31 < 0`.  This refutes the claim's range "for every
nelems ≥ 1". -/
theorem spsc_capacity_counterexample :
    spscEnqCount 2147483648 (fun _ => 7) 0 = some 0 ∧
      spscEnqCount 2147483648 (fun _ => 7) 0 ≠ some 1 := by
  exact ⟨rfl, by decide⟩


/-- C5 (counterexample): the round-trip law fails as stated on an
otherwise-empty ring that `alloc` accepts: on a fresh SPENQ|SCDEQ ring of
`2^31` elements, enqueuing the value 7 enqueues nothing (the enqueue
returns 0, since `(int)(capacity + head - tail)` is negative), and the
following dequeue returns 0 elements with the output cell still holding 0,
not the enqueued value. -/
theorem ringbuf_roundtrip_counterexample :
    ((p64_ringbuf_enqueue 0 (spscSt0 2147483648) (fun _ => 7) 1).map Prod.fst
      = some 0) ∧
    ((p64_ringbuf_enqueue 0 (spscSt0 2147483648) (fun _ => 7) 1).bind (fun x =>
        (p64_ringbuf_dequeue 0 x.2 (fun _ => 0) 1).map (fun y => (y.1, y.2.1 0)))
      = some (0, 0)) ∧
    (0 : Elem) ≠ 7 :=
  ⟨rfl, rfl, by decide⟩

end Progress64
